import Mathlib

/-!
Verification of the `hir_ty` type-inference engine of the unnamed-language
repository (`crates/hir_ty/src/lib.rs`), as a shallow embedding in Lean 4.

The HIR data contract (types, expressions, statements, arenas) is translated
from the repository's data model; the inference functions `infer`,
`infer_in_scope`, `InferCtx::infer_stmt`, `InferCtx::infer_fnc_def`,
`InferCtx::infer_expr` and `InferCtx::expect_tys_match` are translated
one-to-one.  Arenas become lists indexed by natural numbers; the `ArenaMap`
side tables become association lists with overwrite-on-insert.  Rust panics
(out-of-bounds arena indexing, lookup of an absent map key) are modelled by
the `Res.panicked` outcome.  Because the Rust traversal recurses through
arena indices rather than structurally, the embedding threads an explicit
fuel parameter; `Res.fuelOut` marks fuel exhaustion, an artifact of the
embedding that is proved unreachable for well-formed programs.
-/

namespace HirTy

/-- The four-point type lattice of the language (`hir::Ty`):
`Unknown`, `S32` (the integer type), `String`, `Unit`. -/
inductive Ty where
  | unknown
  | s32
  | string
  | unit
deriving DecidableEq, Repr

/-- Binary operators (`hir::BinOp`); inference never inspects these. -/
inductive BinOp where
  | add
  | sub
  | mul
  | div
deriving DecidableEq, Repr

/-- Arena index of an expression (`hir::ExprIdx`). -/
abbrev ExprIdx := Nat

/-- Arena index of a local/var definition (`hir::LocalDefIdx`). -/
abbrev LocalDefIdx := Nat

/-- Arena index of a function definition (`hir::FncDefIdx`). -/
abbrev FncDefIdx := Nat

/-- Arena index of a parameter (`hir::ParamIdx`). -/
abbrev ParamIdx := Nat

/-- A reference target: either a local/var definition or a parameter
(`hir::VarDefIdx`). -/
inductive VarDefIdx where
  | loc (i : LocalDefIdx)
  | param (i : ParamIdx)
deriving DecidableEq, Repr

/-- A statement (`hir::Stmt`): a local definition, a function definition, or
an expression, each referenced through its arena index. -/
inductive Stmt where
  | localDef (i : LocalDefIdx)
  | fncDef (i : FncDefIdx)
  | expr (i : ExprIdx)
deriving DecidableEq, Repr

/-- An expression node (`hir::Expr`).  `bin` carries an optional operator,
which may be absent when the source operator was unresolvable. -/
inductive Expr where
  | missing
  | bin (lhs rhs : ExprIdx) (op : Option BinOp)
  | block (stmts : List Stmt)
  | varRef (v : VarDefIdx)
  | intLiteral (n : Int)
  | stringLiteral (s : String)
deriving DecidableEq, Repr

/-- A local/var definition (`hir::LocalDef`): its initializer expression. -/
structure LocalDef where
  value : ExprIdx
deriving DecidableEq, Repr

/-- A parameter (`hir::Param`): its declared type. -/
structure Param where
  ty : Ty
deriving DecidableEq, Repr

/-- A contiguous range of parameter indices (`arena::IdxRange<Param>`),
with inclusive lower bound `lo` and exclusive upper bound `hi`. -/
structure IdxRange where
  lo : Nat
  hi : Nat
deriving DecidableEq, Repr

/-- The list of indices of an `IdxRange`, in increasing order. -/
def IdxRange.toList (r : IdxRange) : List Nat :=
  (List.range (r.hi - r.lo)).map (fun k => r.lo + k)

/-- A function definition (`hir::FncDef`): its parameter range, declared
return type and body expression. -/
structure FncDef where
  params : IdxRange
  ret_ty : Ty
  body : ExprIdx
deriving DecidableEq, Repr

/-- A lowered program (`hir::Program`): the four arenas plus the ordered
top-level statement list. -/
structure Program where
  local_defs : List LocalDef
  fnc_defs : List FncDef
  params : List Param
  exprs : List Expr
  stmts : List Stmt
deriving DecidableEq, Repr

/-- A side table keyed by arena indices (`arena::ArenaMap`), as an
association list; `insert` overwrites in place, so that identical insert
sequences produce identical tables. -/
structure ArenaMap (α : Type) where
  entries : List (Nat × α)
deriving DecidableEq, Repr

/-- The empty side table. -/
def ArenaMap.empty {α : Type} : ArenaMap α := ⟨[]⟩

/-- Insertion into the underlying association list: overwrite the first
binding of the key, or append a new binding at the end. -/
def insertEntry {α : Type} : List (Nat × α) → Nat → α → List (Nat × α)
  | [], k, v => [(k, v)]
  | (k', v') :: rest, k, v =>
    if k' = k then (k, v) :: rest else (k', v') :: insertEntry rest k v

/-- Lookup in the underlying association list. -/
def findEntry {α : Type} : List (Nat × α) → Nat → Option α
  | [], _ => none
  | (k', v') :: rest, k => if k' = k then some v' else findEntry rest k

/-- Insert a binding (`ArenaMap::insert`). -/
def ArenaMap.insert {α : Type} (m : ArenaMap α) (k : Nat) (v : α) : ArenaMap α :=
  ⟨insertEntry m.entries k v⟩

/-- Look up a binding; `none` corresponds to a key the Rust `ArenaMap`
would panic on when indexed. -/
def ArenaMap.find {α : Type} (m : ArenaMap α) (k : Nat) : Option α :=
  findEntry m.entries k

/-- A recorded function signature (`Sig`): declared parameter types in
order, and the declared return type. -/
structure Sig where
  params : List Ty
  ret_ty : Ty
deriving DecidableEq, Repr

/-- The single diagnostic kind (`TyErrorKind::Mismatch`). -/
inductive TyErrorKind where
  | mismatch (expected found : Ty)
deriving DecidableEq, Repr

/-- A located diagnostic (`TyError`). -/
structure TyError where
  expr : ExprIdx
  kind : TyErrorKind
deriving DecidableEq, Repr

/-- The output of one inference run (`InferResult`). -/
structure InferResult where
  local_tys : ArenaMap Ty
  fnc_sigs : ArenaMap Sig
  param_tys : ArenaMap Ty
  expr_tys : ArenaMap Ty
  errors : List TyError
deriving DecidableEq, Repr

/-- The reusable environment snapshot (`InScope`). -/
structure InScope where
  local_tys : ArenaMap Ty
  fnc_sigs : ArenaMap Sig
  param_tys : ArenaMap Ty
deriving DecidableEq, Repr

/-- The empty snapshot (`InScope::default()`). -/
def InScope.default : InScope := ⟨ArenaMap.empty, ArenaMap.empty, ArenaMap.empty⟩

/-- `InferResult::in_scope`: split a completed result into the reusable
snapshot (the three definition-type maps) and the error list, dropping the
expression-type map. -/
def InferResult.in_scope (r : InferResult) : InScope × List TyError :=
  (⟨r.local_tys, r.fnc_sigs, r.param_tys⟩, r.errors)

/-- Outcome of an embedded computation: success, a Rust panic
(out-of-bounds arena index or absent map key), or fuel exhaustion (an
artifact of the embedding, unreachable for well-formed programs). -/
inductive Res (α : Type) where
  | ok (a : α)
  | panicked
  | fuelOut
deriving DecidableEq, Repr

/-- Sequencing of embedded computations; failures propagate. -/
def Res.bind {α β : Type} : Res α → (α → Res β) → Res β
  | .ok a, f => f a
  | .panicked, _ => .panicked
  | .fuelOut, _ => .fuelOut

/-- Dereference an arena index or map key: absence is a Rust panic. -/
def Res.ofOption {α : Type} : Option α → Res α
  | some a => .ok a
  | none => .panicked

@[simp] theorem Res.bind_ok {α β : Type} (a : α) (f : α → Res β) :
    Res.bind (.ok a) f = f a := rfl

@[simp] theorem Res.bind_panicked {α β : Type} (f : α → Res β) :
    Res.bind .panicked f = .panicked := rfl

@[simp] theorem Res.bind_fuelOut {α β : Type} (f : α → Res β) :
    Res.bind .fuelOut f = .fuelOut := rfl

@[simp] theorem Res.ofOption_some {α : Type} (a : α) :
    Res.ofOption (some a) = .ok a := rfl

@[simp] theorem Res.ofOption_none {α : Type} :
    Res.ofOption (none : Option α) = .panicked := rfl

theorem Res.bind_eq_ok {α β : Type} {r : Res α} {f : α → Res β} {b : β} :
    Res.bind r f = .ok b ↔ ∃ a, r = .ok a ∧ f a = .ok b := by
  cases r <;> simp [Res.bind]

theorem Res.ofOption_eq_ok {α : Type} {o : Option α} {a : α} :
    Res.ofOption o = .ok a ↔ o = some a := by
  cases o <;> simp [Res.ofOption]

theorem Res.bind_ne_fuelOut {α β : Type} {r : Res α} {f : α → Res β}
    (hr : r ≠ .fuelOut) (hf : ∀ a, f a ≠ .fuelOut) : Res.bind r f ≠ .fuelOut := by
  cases r with
  | ok a => exact hf a
  | panicked => simp [Res.bind]
  | fuelOut => exact absurd rfl hr

theorem Res.ofOption_ne_fuelOut {α : Type} (o : Option α) :
    Res.ofOption o ≠ .fuelOut := by
  cases o <;> simp [Res.ofOption]

/-- The expression index a mismatch diagnostic is keyed to, as computed
inside `expect_tys_match`: for a non-empty block whose last statement is an
expression statement, the inner trailing expression; otherwise the checked
expression itself.  `none` when the checked index is out of bounds (the
Rust code would panic dereferencing it). -/
def locateIn (P : Program) (e : ExprIdx) : Option ExprIdx :=
  (P.exprs[e]?).map fun ex =>
    match ex with
    | .block stmts =>
      match stmts.getLast? with
      | some (.expr inner) => inner
      | _ => e
    | _ => e

/-- `InferCtx::expect_tys_match`: record a mismatch diagnostic unless the
found type equals the expected one or either side is `Unknown`. -/
def expect_tys_match (P : Program) (res : InferResult) (e : ExprIdx)
    (expected found : Ty) : Res InferResult :=
  if found = expected ∨ found = Ty.unknown ∨ expected = Ty.unknown then
    .ok res
  else
    Res.bind (Res.ofOption (locateIn P e)) fun loc =>
      .ok { res with
            errors := res.errors ++ [⟨loc, TyErrorKind.mismatch expected found⟩] }

/-- The parameter-recording loop of `InferCtx::infer_fnc_def`: for each
parameter index in order, push its declared type and record it into the
param type map. -/
def record_params (P : Program) (res : InferResult) :
    List ParamIdx → Res (List Ty × InferResult)
  | [] => .ok ([], res)
  | p :: rest =>
    Res.bind (Res.ofOption P.params[p]?) fun param =>
    Res.bind
      (record_params P { res with param_tys := res.param_tys.insert p param.ty } rest)
      fun tr => .ok (param.ty :: tr.1, tr.2)

/-- Store the computed type of an expression into the expression-type map
(the final `self.result.expr_tys.insert(expr, ty)` of `infer_expr`). -/
def recordTy (i : ExprIdx) (r : Res (Ty × InferResult)) : Res (Ty × InferResult) :=
  Res.bind r fun pr => .ok (pr.1, { pr.2 with expr_tys := pr.2.expr_tys.insert i pr.1 })

mutual

/-- `InferCtx::infer_expr`, with explicit fuel. -/
def infer_expr (P : Program) : Nat → InferResult → ExprIdx → Res (Ty × InferResult)
  | 0, _, _ => .fuelOut
  | fuel + 1, res, i =>
    Res.bind (Res.ofOption P.exprs[i]?) fun e =>
      recordTy i
        (match e with
         | .missing => .ok (.unknown, res)
         | .bin lhs rhs _ =>
           Res.bind (infer_expr P fuel res lhs) fun lr =>
           Res.bind (infer_expr P fuel lr.2 rhs) fun rr =>
           Res.bind (expect_tys_match P rr.2 lhs .s32 lr.1) fun res1 =>
           Res.bind (expect_tys_match P res1 rhs .s32 rr.1) fun res2 =>
           .ok (.s32, res2)
         | .block stmts => infer_stmt_list P fuel res stmts
         | .varRef (.loc l) =>
           Res.bind (Res.ofOption (res.local_tys.find l)) fun ty => .ok (ty, res)
         | .varRef (.param p) =>
           Res.bind (Res.ofOption (res.param_tys.find p)) fun ty => .ok (ty, res)
         | .intLiteral _ => .ok (.s32, res)
         | .stringLiteral _ => .ok (.string, res))

/-- The `Block` arm of `infer_expr`: run every statement in order and
return the last statement's value, or `Unit` for an empty block. -/
def infer_stmt_list (P : Program) : Nat → InferResult → List Stmt → Res (Ty × InferResult)
  | 0, _, _ => .fuelOut
  | _ + 1, res, [] => .ok (.unit, res)
  | fuel + 1, res, stmt :: rest =>
    match rest with
    | [] => infer_stmt P fuel res stmt
    | _ :: _ =>
      Res.bind (infer_stmt P fuel res stmt) fun pr =>
        infer_stmt_list P fuel pr.2 rest

/-- `InferCtx::infer_stmt`: a local definition records its initializer's
type and has value `Unit`; a function definition is processed by
`infer_fnc_def` and has value `Unit`; an expression statement's value is
the expression's type. -/
def infer_stmt (P : Program) : Nat → InferResult → Stmt → Res (Ty × InferResult)
  | 0, _, _ => .fuelOut
  | fuel + 1, res, stmt =>
    match stmt with
    | .localDef l =>
      Res.bind (Res.ofOption P.local_defs[l]?) fun ld =>
      Res.bind (infer_expr P fuel res ld.value) fun vr =>
        .ok (.unit, { vr.2 with local_tys := vr.2.local_tys.insert l vr.1 })
    | .fncDef i =>
      Res.bind (infer_fnc_def P fuel res i) fun res1 => .ok (.unit, res1)
    | .expr e => infer_expr P fuel res e

/-- `InferCtx::infer_fnc_def`: record the declared parameter types, infer
the body, check it against the declared return type, and always record the
signature. -/
def infer_fnc_def (P : Program) : Nat → InferResult → FncDefIdx → Res InferResult
  | 0, _, _ => .fuelOut
  | fuel + 1, res, idx =>
    Res.bind (Res.ofOption P.fnc_defs[idx]?) fun fnc_def =>
    Res.bind (record_params P res fnc_def.params.toList) fun pr =>
    Res.bind (infer_expr P fuel pr.2 fnc_def.body) fun br =>
    Res.bind (expect_tys_match P br.2 fnc_def.body fnc_def.ret_ty br.1) fun res1 =>
    .ok { res1 with fnc_sigs := res1.fnc_sigs.insert idx ⟨pr.1, fnc_def.ret_ty⟩ }

end

/-- The top-level statement loop of `infer_in_scope`. -/
def run_stmts (P : Program) (fuel : Nat) : InferResult → List Stmt → Res InferResult
  | res, [] => .ok res
  | res, stmt :: rest =>
    Res.bind (infer_stmt P fuel res stmt) fun pr => run_stmts P fuel pr.2 rest

/-- `infer_in_scope`: seed the result with a prior snapshot, an empty
expression-type map and an empty error list, then infer every top-level
statement in order. -/
def infer_in_scope (P : Program) (in_scope : InScope) (fuel : Nat) : Res InferResult :=
  run_stmts P fuel
    { local_tys := in_scope.local_tys
      fnc_sigs := in_scope.fnc_sigs
      param_tys := in_scope.param_tys
      expr_tys := ArenaMap.empty
      errors := [] }
    P.stmts

/-- `infer`: a fresh run with an empty seed. -/
def infer (P : Program) (fuel : Nat) : Res InferResult :=
  infer_in_scope P InScope.default fuel

/-! ### Basic lemmas about the side tables and the result monad -/

theorem findEntry_insertEntry_self {α : Type} (l : List (Nat × α)) (k : Nat) (v : α) :
    findEntry (insertEntry l k v) k = some v := by
  induction l with
  | nil => simp [insertEntry, findEntry]
  | cons hd tl ih =>
    obtain ⟨k', v'⟩ := hd
    by_cases hk : k' = k <;> simp [insertEntry, findEntry, hk, ih]

theorem findEntry_insertEntry_ne {α : Type} (l : List (Nat × α)) (k k₂ : Nat) (v : α)
    (hne : k₂ ≠ k) : findEntry (insertEntry l k v) k₂ = findEntry l k₂ := by
  induction l with
  | nil => simp [insertEntry, findEntry, Ne.symm hne]
  | cons hd tl ih =>
    obtain ⟨k', v'⟩ := hd
    by_cases hk : k' = k
    · subst hk
      simp [insertEntry, findEntry, Ne.symm hne]
    · simp only [insertEntry, if_neg hk]
      by_cases hk2 : k' = k₂ <;> simp [findEntry, hk2, ih]

theorem ArenaMap.find_insert_self {α : Type} (m : ArenaMap α) (k : Nat) (v : α) :
    (m.insert k v).find k = some v :=
  findEntry_insertEntry_self m.entries k v

theorem ArenaMap.find_insert_ne {α : Type} (m : ArenaMap α) (k k₂ : Nat) (v : α)
    (hne : k₂ ≠ k) : (m.insert k v).find k₂ = m.find k₂ :=
  findEntry_insertEntry_ne m.entries k k₂ v hne

/-- One side table extends another when every key bound in the first is
still bound (to something) in the second. -/
def MapLe {α : Type} (m m' : ArenaMap α) : Prop :=
  ∀ k, (m.find k).isSome → (m'.find k).isSome

theorem mapLe_refl {α : Type} (m : ArenaMap α) : MapLe m m := fun _ h => h

theorem mapLe_trans {α : Type} {m₁ m₂ m₃ : ArenaMap α}
    (h₁ : MapLe m₁ m₂) (h₂ : MapLe m₂ m₃) : MapLe m₁ m₃ :=
  fun k h => h₂ k (h₁ k h)

theorem MapLe.insert {α : Type} (m : ArenaMap α) (k : Nat) (v : α) :
    MapLe m (m.insert k v) := by
  intro k₂ h
  by_cases hk : k₂ = k
  · subst hk
    simp [ArenaMap.find_insert_self]
  · rwa [ArenaMap.find_insert_ne m k k₂ v hk]

/-- An inference state extends another when each of the four side tables
does: entries are never removed by the traversal. -/
def Extends (r r' : InferResult) : Prop :=
  MapLe r.local_tys r'.local_tys ∧ MapLe r.fnc_sigs r'.fnc_sigs ∧
  MapLe r.param_tys r'.param_tys ∧ MapLe r.expr_tys r'.expr_tys

theorem Extends.refl (r : InferResult) : Extends r r :=
  ⟨mapLe_refl _, mapLe_refl _, mapLe_refl _, mapLe_refl _⟩

theorem Extends.trans {r₁ r₂ r₃ : InferResult}
    (h₁ : Extends r₁ r₂) (h₂ : Extends r₂ r₃) : Extends r₁ r₃ :=
  ⟨mapLe_trans h₁.1 h₂.1, mapLe_trans h₁.2.1 h₂.2.1, mapLe_trans h₁.2.2.1 h₂.2.2.1,
   mapLe_trans h₁.2.2.2 h₂.2.2.2⟩

/-! ### Small characterizations of `expect_tys_match` and `record_params` -/

/-- `expect_tys_match` can only append diagnostics; the four side tables
pass through untouched. -/
theorem expect_tys_match_ok_shape {P : Program} {res : InferResult} {e : ExprIdx}
    {expected found : Ty} {res' : InferResult}
    (h : expect_tys_match P res e expected found = .ok res') :
    ∃ tail, res' = { res with errors := res.errors ++ tail } := by
  unfold expect_tys_match at h
  split at h
  · exact ⟨[], by cases h; simp⟩
  · rw [Res.bind_eq_ok] at h
    obtain ⟨loc, _, h⟩ := h
    cases h
    exact ⟨_, rfl⟩

theorem Extends.of_expect {P : Program} {res : InferResult} {e : ExprIdx}
    {expected found : Ty} {res' : InferResult}
    (h : expect_tys_match P res e expected found = .ok res') : Extends res res' := by
  obtain ⟨tail, rfl⟩ := expect_tys_match_ok_shape h
  exact Extends.refl _

theorem expect_tys_match_ne_fuelOut (P : Program) (res : InferResult) (e : ExprIdx)
    (expected found : Ty) : expect_tys_match P res e expected found ≠ .fuelOut := by
  unfold expect_tys_match
  split
  · simp
  · exact Res.bind_ne_fuelOut (Res.ofOption_ne_fuelOut _) (fun _ => by simp)

/-- When the checked index is in bounds, `expect_tys_match` cannot panic,
and it records exactly one located mismatch when the comparison fails and
nothing otherwise. -/
theorem expect_tys_match_spec (P : Program) (res : InferResult) (e : ExprIdx)
    (expected found : Ty) (h : e < P.exprs.length) :
    ∃ loc res', locateIn P e = some loc ∧
      expect_tys_match P res e expected found = .ok res' ∧
      res' = { res with
               errors := res.errors ++
                 (if found = expected ∨ found = Ty.unknown ∨ expected = Ty.unknown then []
                  else [⟨loc, TyErrorKind.mismatch expected found⟩]) } := by
  have hL : ∃ loc, locateIn P e = some loc := by
    unfold locateIn
    rw [List.getElem?_eq_getElem h]
    exact ⟨_, rfl⟩
  obtain ⟨loc, hL⟩ := hL
  refine ⟨loc, _, hL, ?_, rfl⟩
  unfold expect_tys_match
  split
  · rename_i hc
    simp [hc]
  · rename_i hc
    simp [hL, hc]

/-- `record_params` pushes each declared parameter type in order, records
each into the param type map, and touches nothing else. -/
theorem record_params_spec (P : Program) :
    ∀ (ps : List ParamIdx) (res : InferResult) (tys : List Ty) (res' : InferResult),
      record_params P res ps = .ok (tys, res') →
      List.Forall₂ (fun p t => ∃ pa, P.params[p]? = some pa ∧ pa.ty = t) ps tys ∧
      (∀ p ∈ ps, ∃ pa, P.params[p]? = some pa ∧ res'.param_tys.find p = some pa.ty) ∧
      (∀ k, k ∉ ps → res'.param_tys.find k = res.param_tys.find k) ∧
      res'.local_tys = res.local_tys ∧ res'.fnc_sigs = res.fnc_sigs ∧
      res'.expr_tys = res.expr_tys ∧ res'.errors = res.errors := by
  intro ps
  induction ps with
  | nil =>
    intro res tys res' h
    cases h
    simp [List.Forall₂.nil]
  | cons p rest ih =>
    intro res tys res' h
    unfold record_params at h
    rw [Res.bind_eq_ok] at h
    obtain ⟨pa, hpa, h⟩ := h
    rw [Res.ofOption_eq_ok] at hpa
    rw [Res.bind_eq_ok] at h
    obtain ⟨tr, hrec, h⟩ := h
    cases h
    obtain ⟨hall, hmem, hframe, hl, hf, he, herr⟩ := ih _ _ _ hrec
    refine ⟨List.Forall₂.cons ⟨pa, hpa, rfl⟩ hall, ?_, ?_, hl, hf, he, herr⟩
    · intro q hq
      rcases List.mem_cons.mp hq with hq | hq
      · subst hq
        by_cases hqr : q ∈ rest
        · exact hmem q hqr
        · refine ⟨pa, hpa, ?_⟩
          rw [hframe q hqr]
          simp [ArenaMap.find_insert_self]
      · exact hmem q hq
    · intro k hk
      rw [hframe k (fun hkr => hk (List.mem_cons_of_mem _ hkr))]
      simp only
      exact ArenaMap.find_insert_ne _ _ _ _ (fun hkp => hk (by simp [hkp]))

theorem record_params_ne_fuelOut (P : Program) :
    ∀ (ps : List ParamIdx) (res : InferResult), record_params P res ps ≠ .fuelOut := by
  intro ps
  induction ps with
  | nil => intro res; simp [record_params]
  | cons p rest ih =>
    intro res
    unfold record_params
    refine Res.bind_ne_fuelOut (Res.ofOption_ne_fuelOut _) fun pa =>
      Res.bind_ne_fuelOut (ih _) fun tr => by simp

theorem Extends.of_record_params {P : Program} {ps : List ParamIdx} {res : InferResult}
    {tys : List Ty} {res' : InferResult}
    (h : record_params P res ps = .ok (tys, res')) : Extends res res' := by
  induction ps generalizing res tys with
  | nil => cases h; exact Extends.refl _
  | cons p rest ih =>
    unfold record_params at h
    rw [Res.bind_eq_ok] at h
    obtain ⟨pa, hpa, h⟩ := h
    rw [Res.bind_eq_ok] at h
    obtain ⟨tr, hrec, h⟩ := h
    cases h
    refine Extends.trans ?_ (ih hrec)
    exact ⟨mapLe_refl _, mapLe_refl _, MapLe.insert _ _ _, mapLe_refl _⟩

/-! ### Postconditions of the traversal: side tables only grow, and a
successfully inferred expression always ends up typed in the result. -/

theorem Extends.insert_expr (r : InferResult) (k : Nat) (ty : Ty) :
    Extends r { r with expr_tys := r.expr_tys.insert k ty } :=
  ⟨mapLe_refl _, mapLe_refl _, mapLe_refl _, MapLe.insert _ _ _⟩

theorem Extends.insert_local (r : InferResult) (k : Nat) (ty : Ty) :
    Extends r { r with local_tys := r.local_tys.insert k ty } :=
  ⟨MapLe.insert _ _ _, mapLe_refl _, mapLe_refl _, mapLe_refl _⟩

theorem Extends.insert_sig (r : InferResult) (k : Nat) (sig : Sig) :
    Extends r { r with fnc_sigs := r.fnc_sigs.insert k sig } :=
  ⟨mapLe_refl _, MapLe.insert _ _ _, mapLe_refl _, mapLe_refl _⟩

theorem post_all : ∀ F : Nat,
    (∀ (P : Program) (res : InferResult) (i : ExprIdx) (ty : Ty) (res' : InferResult),
        infer_expr P F res i = .ok (ty, res') →
        Extends res res' ∧ res'.expr_tys.find i = some ty ∧ i < P.exprs.length) ∧
    (∀ (P : Program) (res : InferResult) (ss : List Stmt) (ty : Ty) (res' : InferResult),
        infer_stmt_list P F res ss = .ok (ty, res') → Extends res res') ∧
    (∀ (P : Program) (res : InferResult) (s : Stmt) (ty : Ty) (res' : InferResult),
        infer_stmt P F res s = .ok (ty, res') → Extends res res') ∧
    (∀ (P : Program) (res : InferResult) (idx : FncDefIdx) (res' : InferResult),
        infer_fnc_def P F res idx = .ok res' → Extends res res') := by
  intro F
  induction F with
  | zero =>
    refine ⟨?_, ?_, ?_, ?_⟩ <;> intros <;>
      simp_all [infer_expr, infer_stmt_list, infer_stmt, infer_fnc_def]
  | succ F ih =>
    obtain ⟨ihE, ihL, ihS, ihF⟩ := ih
    have hE : ∀ (P : Program) (res : InferResult) (i : ExprIdx) (ty : Ty) (res' : InferResult),
        infer_expr P (F + 1) res i = .ok (ty, res') →
        Extends res res' ∧ res'.expr_tys.find i = some ty ∧ i < P.exprs.length := by
      intro P res i ty res' h
      unfold infer_expr at h
      rw [Res.bind_eq_ok] at h
      obtain ⟨e, hei, h⟩ := h
      rw [Res.ofOption_eq_ok] at hei
      have hlen : i < P.exprs.length := by
        rcases List.getElem?_eq_some.mp hei with ⟨hl, _⟩
        exact hl
      unfold recordTy at h
      rw [Res.bind_eq_ok] at h
      obtain ⟨pr, hpr, h⟩ := h
      cases h
      refine ⟨?_, ArenaMap.find_insert_self _ _ _, hlen⟩
      split at hpr
      · cases hpr
        exact Extends.insert_expr _ _ _
      · rw [Res.bind_eq_ok] at hpr
        obtain ⟨lr, hL, hpr⟩ := hpr
        rw [Res.bind_eq_ok] at hpr
        obtain ⟨rr, hR, hpr⟩ := hpr
        rw [Res.bind_eq_ok] at hpr
        obtain ⟨r1, hX1, hpr⟩ := hpr
        rw [Res.bind_eq_ok] at hpr
        obtain ⟨r2, hX2, hpr⟩ := hpr
        cases hpr
        exact ((((ihE _ _ _ _ _ hL).1.trans
          (ihE _ _ _ _ _ hR).1).trans (Extends.of_expect hX1)).trans
          (Extends.of_expect hX2)).trans (Extends.insert_expr _ _ _)
      · exact (ihL _ _ _ _ _ hpr).trans (Extends.insert_expr _ _ _)
      · rw [Res.bind_eq_ok] at hpr
        obtain ⟨ty0, _, hpr⟩ := hpr
        cases hpr
        exact Extends.insert_expr _ _ _
      · rw [Res.bind_eq_ok] at hpr
        obtain ⟨ty0, _, hpr⟩ := hpr
        cases hpr
        exact Extends.insert_expr _ _ _
      · cases hpr
        exact Extends.insert_expr _ _ _
      · cases hpr
        exact Extends.insert_expr _ _ _
    have hF2 : ∀ (P : Program) (res : InferResult) (idx : FncDefIdx) (res' : InferResult),
        infer_fnc_def P (F + 1) res idx = .ok res' → Extends res res' := by
      intro P res idx res' h
      unfold infer_fnc_def at h
      rw [Res.bind_eq_ok] at h
      obtain ⟨fd, _, h⟩ := h
      rw [Res.bind_eq_ok] at h
      obtain ⟨pr, hrp, h⟩ := h
      rw [Res.bind_eq_ok] at h
      obtain ⟨br, hb, h⟩ := h
      rw [Res.bind_eq_ok] at h
      obtain ⟨r1, hx, h⟩ := h
      cases h
      exact (((Extends.of_record_params hrp).trans
        (ihE _ _ _ _ _ hb).1).trans (Extends.of_expect hx)).trans (Extends.insert_sig _ _ _)
    have hS : ∀ (P : Program) (res : InferResult) (s : Stmt) (ty : Ty) (res' : InferResult),
        infer_stmt P (F + 1) res s = .ok (ty, res') → Extends res res' := by
      intro P res s ty res' h
      unfold infer_stmt at h
      split at h
      · rw [Res.bind_eq_ok] at h
        obtain ⟨ld, _, h⟩ := h
        rw [Res.bind_eq_ok] at h
        obtain ⟨vr, hv, h⟩ := h
        cases h
        exact (ihE _ _ _ _ _ hv).1.trans (Extends.insert_local _ _ _)
      · rw [Res.bind_eq_ok] at h
        obtain ⟨r1, hf, h⟩ := h
        cases h
        exact ihF _ _ _ _ hf
      · exact (ihE _ _ _ _ _ h).1
    refine ⟨hE, ?_, hS, hF2⟩
    intro P res ss ty res' h
    match ss with
    | [] =>
      cases h
      exact Extends.refl _
    | [s] =>
      simp only [infer_stmt_list] at h
      exact ihS _ _ _ _ _ h
    | s :: s2 :: rest =>
      simp only [infer_stmt_list] at h
      rw [Res.bind_eq_ok] at h
      obtain ⟨pr, hs, h⟩ := h
      exact (ihS _ _ _ _ _ hs).trans (ihL _ _ _ _ _ h)

/-! ### Well-formedness of a program and sufficiency of an explicit fuel
bound: the HIR invariant that every node only references earlier arena
entries makes the traversal terminate. -/

/-- The largest number of statements in any block of the expression arena. -/
def maxStmts (P : Program) : Nat :=
  P.exprs.foldr
    (fun e acc =>
      match e with
      | .block ss => max ss.length acc
      | _ => acc)
    0

/-- Syntactic well-formedness of one statement relative to an exclusive
upper bound on the expression indices it may mention: the definition it
names exists, and the expressions it reaches lie strictly below the bound. -/
def stmtOkB (P : Program) (bound : Nat) : Stmt → Bool
  | .localDef l =>
    match P.local_defs[l]? with
    | some ld => decide (ld.value < bound)
    | none => false
  | .fncDef i =>
    match P.fnc_defs[i]? with
    | some fd =>
      decide (fd.body < bound) &&
        fd.params.toList.all (fun p => decide (p < P.params.length))
    | none => false
  | .expr e => decide (e < bound)

/-- Syntactic well-formedness of the expression stored at index `i`: all
child expressions have strictly smaller indices (the arena is built
bottom-up by the lowering stage, children before parents). -/
def exprOkB (P : Program) (i : Nat) : Expr → Bool
  | .bin l r _ => decide (l < i) && decide (r < i)
  | .block ss => ss.all (stmtOkB P i)
  | _ => true

/-- Well-formedness of a whole program: each arena entry references only
earlier entries and every top-level statement is well formed.  This is the
invariant the upstream lowering stage guarantees. -/
def wfB (P : Program) : Bool :=
  (List.range P.exprs.length).all
    (fun i =>
      match P.exprs[i]? with
      | some e => exprOkB P i e
      | none => false) &&
  P.stmts.all (stmtOkB P P.exprs.length)

theorem block_len_le_foldr (l : List Expr) (ss : List Stmt) (h : Expr.block ss ∈ l) :
    ss.length ≤
      l.foldr
        (fun e acc =>
          match e with
          | .block ss2 => max ss2.length acc
          | _ => acc)
        0 := by
  induction l with
  | nil => cases h
  | cons e rest ih =>
    rcases List.mem_cons.mp h with h | h
    · subst h
      simp
    · refine le_trans (ih h) ?_
      cases e <;> simp

theorem block_len_le_maxStmts {P : Program} {i : Nat} {ss : List Stmt}
    (h : P.exprs[i]? = some (.block ss)) : ss.length ≤ maxStmts P := by
  have hmem : Expr.block ss ∈ P.exprs := by
    rcases List.getElem?_eq_some.mp h with ⟨hl, he⟩
    exact he ▸ List.getElem_mem hl
  exact block_len_le_foldr _ _ hmem

theorem wfB_expr {P : Program} (hwf : wfB P = true) {i : Nat} {e : Expr}
    (h : P.exprs[i]? = some e) : exprOkB P i e = true := by
  unfold wfB at hwf
  rw [Bool.and_eq_true] at hwf
  have hlen : i < P.exprs.length := by
    rcases List.getElem?_eq_some.mp h with ⟨hl, _⟩
    exact hl
  have := List.all_eq_true.mp hwf.1 i (List.mem_range.mpr hlen)
  rw [h] at this
  exact this

theorem wfB_top {P : Program} (hwf : wfB P = true) {s : Stmt} (hs : s ∈ P.stmts) :
    stmtOkB P P.exprs.length s = true := by
  unfold wfB at hwf
  rw [Bool.and_eq_true] at hwf
  exact List.all_eq_true.mp hwf.2 s hs

theorem suff_fnc (P : Program) (b : Nat)
    (IH : ∀ j, j < b → ∀ (F : Nat) (res : InferResult),
        (j + 1) * (maxStmts P + 3) ≤ F → infer_expr P F res j ≠ .fuelOut)
    (idx : FncDefIdx) (hs : stmtOkB P b (.fncDef idx) = true) :
    ∀ (F : Nat) (res : InferResult), b * (maxStmts P + 3) + 1 ≤ F →
      infer_fnc_def P F res idx ≠ .fuelOut := by
  intro F res hF
  cases hfd : P.fnc_defs[idx]? with
  | none => simp [stmtOkB, hfd] at hs
  | some fd =>
    simp only [stmtOkB, hfd, Bool.and_eq_true, decide_eq_true_eq] at hs
    obtain ⟨hbody, -⟩ := hs
    obtain ⟨F', rfl⟩ : ∃ F', F = F' + 1 := ⟨F - 1, by omega⟩
    unfold infer_fnc_def
    rw [hfd]
    simp only [Res.ofOption_some, Res.bind_ok]
    refine Res.bind_ne_fuelOut (record_params_ne_fuelOut P _ _) fun pr => ?_
    refine Res.bind_ne_fuelOut ?_ fun br =>
      Res.bind_ne_fuelOut (expect_tys_match_ne_fuelOut _ _ _ _ _) fun r1 => by simp
    have h1 : (fd.body + 1) * (maxStmts P + 3) ≤ b * (maxStmts P + 3) :=
      Nat.mul_le_mul hbody (le_refl _)
    exact IH fd.body hbody F' pr.2 (le_trans h1 (by omega))

theorem suff_stmt (P : Program) (b : Nat)
    (IH : ∀ j, j < b → ∀ (F : Nat) (res : InferResult),
        (j + 1) * (maxStmts P + 3) ≤ F → infer_expr P F res j ≠ .fuelOut)
    (s : Stmt) (hs : stmtOkB P b s = true) :
    ∀ (F : Nat) (res : InferResult), b * (maxStmts P + 3) + 2 ≤ F →
      infer_stmt P F res s ≠ .fuelOut := by
  intro F res hF
  obtain ⟨F', rfl⟩ : ∃ F', F = F' + 1 := ⟨F - 1, by omega⟩
  unfold infer_stmt
  cases s with
  | localDef l =>
    cases hld : P.local_defs[l]? with
    | none => simp [stmtOkB, hld] at hs
    | some ld =>
      simp only [stmtOkB, hld, decide_eq_true_eq] at hs
      simp only [hld, Res.ofOption_some, Res.bind_ok]
      refine Res.bind_ne_fuelOut ?_ fun vr => by simp
      have h1 : (ld.value + 1) * (maxStmts P + 3) ≤ b * (maxStmts P + 3) :=
        Nat.mul_le_mul hs (le_refl _)
      exact IH ld.value hs F' res (le_trans h1 (by omega))
  | fncDef i =>
    refine Res.bind_ne_fuelOut ?_ fun r1 => by simp
    exact suff_fnc P b IH i hs F' res (by omega)
  | expr e =>
    simp only [stmtOkB, decide_eq_true_eq] at hs
    have h1 : (e + 1) * (maxStmts P + 3) ≤ b * (maxStmts P + 3) :=
      Nat.mul_le_mul hs (le_refl _)
    exact IH e hs F' res (le_trans h1 (by omega))

theorem suff_list (P : Program) (b : Nat)
    (IH : ∀ j, j < b → ∀ (F : Nat) (res : InferResult),
        (j + 1) * (maxStmts P + 3) ≤ F → infer_expr P F res j ≠ .fuelOut) :
    ∀ (ss : List Stmt), (∀ s ∈ ss, stmtOkB P b s = true) →
    ∀ (F : Nat) (res : InferResult), b * (maxStmts P + 3) + 2 + ss.length ≤ F →
      infer_stmt_list P F res ss ≠ .fuelOut := by
  intro ss
  induction ss with
  | nil =>
    intro _ F res hF
    obtain ⟨F', rfl⟩ : ∃ F', F = F' + 1 := ⟨F - 1, by omega⟩
    simp [infer_stmt_list]
  | cons s rest ih =>
    intro hall F res hF
    obtain ⟨F', rfl⟩ : ∃ F', F = F' + 1 := ⟨F - 1, by omega⟩
    have hs := hall s (List.mem_cons_self s rest)
    unfold infer_stmt_list
    match rest with
    | [] =>
      exact suff_stmt P b IH s hs F' res (by simp at hF; omega)
    | s2 :: rest2 =>
      refine Res.bind_ne_fuelOut
        (suff_stmt P b IH s hs F' res (by simp at hF; omega)) fun pr => ?_
      exact ih (fun q hq => hall q (List.mem_cons_of_mem _ hq)) F' pr.2
        (by simp at hF ⊢; omega)

theorem suff_expr_aux (P : Program) (hwf : wfB P = true) :
    ∀ (n i : Nat), i < n → ∀ (F : Nat) (res : InferResult), i < P.exprs.length →
      (i + 1) * (maxStmts P + 3) ≤ F → infer_expr P F res i ≠ .fuelOut := by
  intro n
  induction n with
  | zero => exact fun i hi => absurd hi (Nat.not_lt_zero i)
  | succ n IH =>
    intro i hin F res hlen hF
    rw [Nat.succ_mul] at hF
    obtain ⟨F', rfl⟩ : ∃ F', F = F' + 1 := ⟨F - 1, by omega⟩
    have hIH : ∀ j, j < i → ∀ (F : Nat) (res : InferResult),
        (j + 1) * (maxStmts P + 3) ≤ F → infer_expr P F res j ≠ .fuelOut :=
      fun j hj F res hFK => IH j (by omega) F res (by omega) hFK
    unfold infer_expr
    cases hE : P.exprs[i]? with
    | none => simp
    | some e =>
      simp only [hE, Res.ofOption_some, Res.bind_ok]
      unfold recordTy
      refine Res.bind_ne_fuelOut ?_ fun pr => by simp
      have hok := wfB_expr hwf hE
      cases e with
      | missing => simp
      | bin lhs rhs op =>
        simp only [exprOkB, Bool.and_eq_true, decide_eq_true_eq] at hok
        have hlK : (lhs + 1) * (maxStmts P + 3) ≤ i * (maxStmts P + 3) :=
          Nat.mul_le_mul hok.1 (le_refl _)
        have hrK : (rhs + 1) * (maxStmts P + 3) ≤ i * (maxStmts P + 3) :=
          Nat.mul_le_mul hok.2 (le_refl _)
        refine Res.bind_ne_fuelOut
          (hIH lhs hok.1 F' res (le_trans hlK (by omega))) fun lr => ?_
        refine Res.bind_ne_fuelOut
          (hIH rhs hok.2 F' lr.2 (le_trans hrK (by omega))) fun rr => ?_
        clear hlK hrK
        refine Res.bind_ne_fuelOut (expect_tys_match_ne_fuelOut _ _ _ _ _) fun r1 => ?_
        exact Res.bind_ne_fuelOut (expect_tys_match_ne_fuelOut _ _ _ _ _) fun r2 => by simp
      | block ss =>
        simp only [exprOkB] at hok
        have hssK : ss.length ≤ maxStmts P := block_len_le_maxStmts hE
        exact suff_list P i hIH ss (List.all_eq_true.mp hok) F' res (by omega)
      | varRef v =>
        cases v with
        | loc l => exact Res.bind_ne_fuelOut (Res.ofOption_ne_fuelOut _) fun ty => by simp
        | param p => exact Res.bind_ne_fuelOut (Res.ofOption_ne_fuelOut _) fun ty => by simp
      | intLiteral n => simp
      | stringLiteral s => simp

theorem suff_expr (P : Program) (hwf : wfB P = true) :
    ∀ (i : ExprIdx) (F : Nat) (res : InferResult), i < P.exprs.length →
      (i + 1) * (maxStmts P + 3) ≤ F → infer_expr P F res i ≠ .fuelOut :=
  fun i => suff_expr_aux P hwf (i + 1) i (Nat.lt_succ_self i)

/-- An explicit fuel bound sufficient to run inference over any statement
list of a well-formed program. -/
def fuelFor (P : Program) : Nat := (P.exprs.length + 1) * (maxStmts P + 3)

theorem suff_run (P : Program) (hwf : wfB P = true) :
    ∀ (ss : List Stmt), (∀ s ∈ ss, stmtOkB P P.exprs.length s = true) →
    ∀ (res : InferResult) (F : Nat), P.exprs.length * (maxStmts P + 3) + 2 ≤ F →
      run_stmts P F res ss ≠ .fuelOut := by
  intro ss
  induction ss with
  | nil => intro _ res F _; simp [run_stmts]
  | cons s rest ih =>
    intro hall res F hF
    unfold run_stmts
    refine Res.bind_ne_fuelOut
      (suff_stmt P P.exprs.length
        (fun j hj F2 res2 hFK => suff_expr P hwf j F2 res2 hj hFK) s
        (hall s (List.mem_cons_self s rest)) F res hF)
      fun pr => ?_
    exact ih (fun q hq => hall q (List.mem_cons_of_mem _ hq)) pr.2 F hF

theorem infer_in_scope_ne_fuelOut (P : Program) (scope : InScope) (hwf : wfB P = true) :
    infer_in_scope P scope (fuelFor P) ≠ .fuelOut := by
  unfold infer_in_scope
  refine suff_run P hwf P.stmts (fun s hs => wfB_top hwf hs) _ (fuelFor P) ?_
  unfold fuelFor
  have : P.exprs.length * (maxStmts P + 3) + (maxStmts P + 3) =
      (P.exprs.length + 1) * (maxStmts P + 3) := by ring
  omega

/-! ### Inversion lemmas: decomposing a successful run into its sub-runs -/

theorem run_stmts_extends {P : Program} {F : Nat} :
    ∀ {ss : List Stmt} {res res' : InferResult},
      run_stmts P F res ss = .ok res' → Extends res res' := by
  intro ss
  induction ss with
  | nil =>
    intro res res' h
    cases h
    exact Extends.refl _
  | cons s rest ih =>
    intro res res' h
    unfold run_stmts at h
    rw [Res.bind_eq_ok] at h
    obtain ⟨pr, hs, hrest⟩ := h
    exact ((post_all F).2.2.1 _ _ _ _ _ hs).trans (ih hrest)

theorem run_stmts_mem {P : Program} {F : Nat} {s : Stmt} :
    ∀ {ss : List Stmt} {res final : InferResult}, s ∈ ss →
      run_stmts P F res ss = .ok final →
      ∃ r0 t r1, infer_stmt P F r0 s = .ok (t, r1) ∧ Extends r1 final := by
  intro ss
  induction ss with
  | nil => intro res final hmem; cases hmem
  | cons s2 rest ih =>
    intro res final hmem h
    unfold run_stmts at h
    rw [Res.bind_eq_ok] at h
    obtain ⟨pr, hs2, hrest⟩ := h
    rcases List.mem_cons.mp hmem with rfl | hmem
    · exact ⟨res, pr.1, pr.2, hs2, run_stmts_extends hrest⟩
    · exact ih hmem hrest

theorem infer_stmt_list_mem {P : Program} {s : Stmt} :
    ∀ {ss : List Stmt} {F : Nat} {res : InferResult} {t : Ty} {final : InferResult},
      s ∈ ss → infer_stmt_list P F res ss = .ok (t, final) →
      ∃ g r0 t' r1, infer_stmt P g r0 s = .ok (t', r1) ∧ Extends r1 final := by
  intro ss
  induction ss with
  | nil => intro F res t final hmem; cases hmem
  | cons s2 rest ih =>
    intro F res t final hmem h
    match F with
    | 0 => cases h
    | F' + 1 =>
      match rest with
      | [] =>
        have h2 : infer_stmt P F' res s2 = .ok (t, final) := h
        rcases List.mem_cons.mp hmem with rfl | hmem
        · exact ⟨F', res, t, final, h2, Extends.refl _⟩
        · cases hmem
      | s3 :: rest2 =>
        have h2 : Res.bind (infer_stmt P F' res s2)
            (fun pr => infer_stmt_list P F' pr.2 (s3 :: rest2)) = .ok (t, final) := h
        rw [Res.bind_eq_ok] at h2
        obtain ⟨pr, hs2, hrest⟩ := h2
        rcases List.mem_cons.mp hmem with rfl | hmem
        · exact ⟨F', res, pr.1, pr.2, hs2, (post_all F').2.1 _ _ _ _ _ hrest⟩
        · exact ih hmem hrest

theorem inv_expr_block {P : Program} {F : Nat} {res : InferResult} {i : ExprIdx}
    {ss : List Stmt} {t : Ty} {res' : InferResult}
    (hE : P.exprs[i]? = some (.block ss))
    (h : infer_expr P F res i = .ok (t, res')) :
    ∃ g pr, F = g + 1 ∧ infer_stmt_list P g res ss = .ok pr ∧ t = pr.1 ∧
      res' = { pr.2 with expr_tys := pr.2.expr_tys.insert i pr.1 } := by
  match F with
  | 0 => cases h
  | g + 1 =>
    unfold infer_expr at h
    rw [hE] at h
    simp only [Res.ofOption_some, Res.bind_ok] at h
    unfold recordTy at h
    rw [Res.bind_eq_ok] at h
    obtain ⟨pr, hpr, h⟩ := h
    have hpr2 : infer_stmt_list P g res ss = .ok pr := hpr
    cases h
    exact ⟨g, pr, rfl, hpr2, rfl, rfl⟩

theorem inv_expr_bin {P : Program} {F : Nat} {res : InferResult} {i : ExprIdx}
    {lhs rhs : ExprIdx} {op : Option BinOp} {t : Ty} {res' : InferResult}
    (hE : P.exprs[i]? = some (.bin lhs rhs op))
    (h : infer_expr P F res i = .ok (t, res')) :
    ∃ g lr rr r1 r2, F = g + 1 ∧
      infer_expr P g res lhs = .ok lr ∧
      infer_expr P g lr.2 rhs = .ok rr ∧
      expect_tys_match P rr.2 lhs .s32 lr.1 = .ok r1 ∧
      expect_tys_match P r1 rhs .s32 rr.1 = .ok r2 ∧
      t = .s32 ∧ res' = { r2 with expr_tys := r2.expr_tys.insert i Ty.s32 } := by
  match F with
  | 0 => cases h
  | g + 1 =>
    unfold infer_expr at h
    rw [hE] at h
    simp only [Res.ofOption_some, Res.bind_ok] at h
    unfold recordTy at h
    rw [Res.bind_eq_ok] at h
    obtain ⟨pr, hpr, h⟩ := h
    have hpr2 : (Res.bind (infer_expr P g res lhs) fun lr =>
        Res.bind (infer_expr P g lr.2 rhs) fun rr =>
        Res.bind (expect_tys_match P rr.2 lhs .s32 lr.1) fun res1 =>
        Res.bind (expect_tys_match P res1 rhs .s32 rr.1) fun res2 =>
        .ok (.s32, res2)) = .ok pr := hpr
    rw [Res.bind_eq_ok] at hpr2
    obtain ⟨lr, hL, hpr2⟩ := hpr2
    rw [Res.bind_eq_ok] at hpr2
    obtain ⟨rr, hR, hpr2⟩ := hpr2
    rw [Res.bind_eq_ok] at hpr2
    obtain ⟨r1, hX1, hpr2⟩ := hpr2
    rw [Res.bind_eq_ok] at hpr2
    obtain ⟨r2, hX2, hpr2⟩ := hpr2
    cases hpr2
    cases h
    exact ⟨g, lr, rr, r1, r2, rfl, hL, hR, hX1, hX2, rfl, rfl⟩

theorem inv_expr_varRef_loc {P : Program} {F : Nat} {res : InferResult} {i : ExprIdx}
    {l : LocalDefIdx} {t : Ty} {res' : InferResult}
    (hE : P.exprs[i]? = some (.varRef (.loc l)))
    (h : infer_expr P F res i = .ok (t, res')) :
    ∃ g, F = g + 1 ∧ res.local_tys.find l = some t ∧
      res' = { res with expr_tys := res.expr_tys.insert i t } := by
  match F with
  | 0 => cases h
  | g + 1 =>
    unfold infer_expr at h
    rw [hE] at h
    simp only [Res.ofOption_some, Res.bind_ok] at h
    unfold recordTy at h
    rw [Res.bind_eq_ok] at h
    obtain ⟨pr, hpr, h⟩ := h
    have hpr2 : (Res.bind (Res.ofOption (res.local_tys.find l)) fun ty =>
        .ok (ty, res)) = .ok pr := hpr
    rw [Res.bind_eq_ok] at hpr2
    obtain ⟨ty0, hty, hpr2⟩ := hpr2
    rw [Res.ofOption_eq_ok] at hty
    cases hpr2
    cases h
    exact ⟨g, rfl, hty, rfl⟩

theorem inv_stmt_expr {P : Program} {F : Nat} {res : InferResult} {e : ExprIdx}
    {t : Ty} {res' : InferResult}
    (h : infer_stmt P F res (.expr e) = .ok (t, res')) :
    ∃ g, F = g + 1 ∧ infer_expr P g res e = .ok (t, res') := by
  match F with
  | 0 => cases h
  | g + 1 => exact ⟨g, rfl, h⟩

theorem inv_stmt_localDef {P : Program} {F : Nat} {res : InferResult} {l : LocalDefIdx}
    {t : Ty} {res' : InferResult}
    (h : infer_stmt P F res (.localDef l) = .ok (t, res')) :
    ∃ g ld vr, F = g + 1 ∧ P.local_defs[l]? = some ld ∧
      infer_expr P g res ld.value = .ok vr ∧ t = .unit ∧
      res' = { vr.2 with local_tys := vr.2.local_tys.insert l vr.1 } := by
  match F with
  | 0 => cases h
  | g + 1 =>
    have h2 : (Res.bind (Res.ofOption P.local_defs[l]?) fun ld =>
        Res.bind (infer_expr P g res ld.value) fun vr =>
        .ok (.unit, { vr.2 with local_tys := vr.2.local_tys.insert l vr.1 })) =
        .ok (t, res') := h
    rw [Res.bind_eq_ok] at h2
    obtain ⟨ld, hld, h2⟩ := h2
    rw [Res.ofOption_eq_ok] at hld
    rw [Res.bind_eq_ok] at h2
    obtain ⟨vr, hvr, h2⟩ := h2
    cases h2
    exact ⟨g, ld, vr, rfl, hld, hvr, rfl, rfl⟩

theorem inv_stmt_fncDef {P : Program} {F : Nat} {res : InferResult} {idx : FncDefIdx}
    {t : Ty} {res' : InferResult}
    (h : infer_stmt P F res (.fncDef idx) = .ok (t, res')) :
    ∃ g, F = g + 1 ∧ infer_fnc_def P g res idx = .ok res' ∧ t = .unit := by
  match F with
  | 0 => cases h
  | g + 1 =>
    have h2 : (Res.bind (infer_fnc_def P g res idx) fun res1 =>
        .ok (Ty.unit, res1)) = .ok (t, res') := h
    rw [Res.bind_eq_ok] at h2
    obtain ⟨r1, hr1, h2⟩ := h2
    cases h2
    exact ⟨g, rfl, hr1, rfl⟩

theorem inv_fnc_def {P : Program} {F : Nat} {res : InferResult} {idx : FncDefIdx}
    {res' : InferResult}
    (h : infer_fnc_def P F res idx = .ok res') :
    ∃ g fd pr br r1, F = g + 1 ∧ P.fnc_defs[idx]? = some fd ∧
      record_params P res fd.params.toList = .ok pr ∧
      infer_expr P g pr.2 fd.body = .ok br ∧
      expect_tys_match P br.2 fd.body fd.ret_ty br.1 = .ok r1 ∧
      res' = { r1 with fnc_sigs := r1.fnc_sigs.insert idx ⟨pr.1, fd.ret_ty⟩ } := by
  match F with
  | 0 => cases h
  | g + 1 =>
    unfold infer_fnc_def at h
    rw [Res.bind_eq_ok] at h
    obtain ⟨fd, hfd, h⟩ := h
    rw [Res.ofOption_eq_ok] at hfd
    rw [Res.bind_eq_ok] at h
    obtain ⟨pr, hpr, h⟩ := h
    rw [Res.bind_eq_ok] at h
    obtain ⟨br, hbr, h⟩ := h
    rw [Res.bind_eq_ok] at h
    obtain ⟨r1, hr1, h⟩ := h
    cases h
    exact ⟨g, fd, pr, br, r1, rfl, hfd, hpr, hbr, hr1, rfl⟩

/-! ### The statements and expressions a run visits -/

/-- The statements the traversal of a program visits.  A visited expression
`e` is represented as the visited pseudo-statement `Stmt.expr e` (inferring
the statement `Stmt.expr e` is exactly inferring the expression `e`). -/
inductive Visited (P : Program) : Stmt → Prop where
  | top {s : Stmt} (hs : s ∈ P.stmts) : Visited P s
  | ofBlock {i : ExprIdx} {ss : List Stmt} {s : Stmt} (hv : Visited P (.expr i))
      (hE : P.exprs[i]? = some (.block ss)) (hs : s ∈ ss) : Visited P s
  | localValue {l : LocalDefIdx} {ld : LocalDef} (hv : Visited P (.localDef l))
      (hld : P.local_defs[l]? = some ld) : Visited P (.expr ld.value)
  | fncBody {f : FncDefIdx} {fd : FncDef} (hv : Visited P (.fncDef f))
      (hfd : P.fnc_defs[f]? = some fd) : Visited P (.expr fd.body)
  | binLhs {i lhs rhs : ExprIdx} {op : Option BinOp} (hv : Visited P (.expr i))
      (hE : P.exprs[i]? = some (.bin lhs rhs op)) : Visited P (.expr lhs)
  | binRhs {i lhs rhs : ExprIdx} {op : Option BinOp} (hv : Visited P (.expr i))
      (hE : P.exprs[i]? = some (.bin lhs rhs op)) : Visited P (.expr rhs)

/-- Every statement visited by a successful run was itself successfully
inferred at some intermediate state, whose output the final result extends. -/
theorem visited_run {P : Program} {scope : InScope} {F : Nat} {final : InferResult}
    (hrun : infer_in_scope P scope F = .ok final) :
    ∀ {s : Stmt}, Visited P s →
      ∃ g r0 t r1, infer_stmt P g r0 s = .ok (t, r1) ∧ Extends r1 final := by
  intro s hv
  induction hv with
  | top hs =>
    unfold infer_in_scope at hrun
    obtain ⟨r0, t, r1, h1, h2⟩ := run_stmts_mem hs hrun
    exact ⟨F, r0, t, r1, h1, h2⟩
  | ofBlock hv hE hs ihv =>
    obtain ⟨g, r0, t, r1, hstmt, hext⟩ := ihv
    obtain ⟨g', -, hexpr⟩ := inv_stmt_expr hstmt
    obtain ⟨g2, pr, -, hlist, -, hres⟩ := inv_expr_block hE hexpr
    obtain ⟨g3, r3, t3, r4, hstmt3, hext3⟩ := infer_stmt_list_mem hs hlist
    refine ⟨g3, r3, t3, r4, hstmt3, hext3.trans (Extends.trans ?_ hext)⟩
    rw [hres]
    exact Extends.insert_expr _ _ _
  | localValue hv hld ihv =>
    obtain ⟨g, r0, t, r1, hstmt, hext⟩ := ihv
    obtain ⟨g', ld', vr, -, hld', hvr, -, hres⟩ := inv_stmt_localDef hstmt
    rw [hld] at hld'
    cases hld'
    have hw : infer_stmt P (g' + 1) r0 (.expr _) = .ok (vr.1, vr.2) := hvr
    refine ⟨g' + 1, r0, vr.1, vr.2, hw, Extends.trans ?_ hext⟩
    rw [hres]
    exact Extends.insert_local _ _ _
  | fncBody hv hfd ihv =>
    obtain ⟨g, r0, t, r1, hstmt, hext⟩ := ihv
    obtain ⟨g', -, hfnc, -⟩ := inv_stmt_fncDef hstmt
    obtain ⟨g2, fd', pr, br, r2, -, hfd', hpr, hbr, hx, hres⟩ := inv_fnc_def hfnc
    rw [hfd] at hfd'
    cases hfd'
    have hw : infer_stmt P (g2 + 1) pr.2 (.expr _) = .ok (br.1, br.2) := hbr
    refine ⟨g2 + 1, pr.2, br.1, br.2, hw,
      ((Extends.of_expect hx).trans (Extends.trans ?_ hext))⟩
    rw [hres]
    exact Extends.insert_sig _ _ _
  | binLhs hv hE ihv =>
    obtain ⟨g, r0, t, r1, hstmt, hext⟩ := ihv
    obtain ⟨g', -, hexpr⟩ := inv_stmt_expr hstmt
    obtain ⟨g2, lr, rr, rx1, rx2, -, hL, hR, hX1, hX2, -, hres⟩ := inv_expr_bin hE hexpr
    have hw : infer_stmt P (g2 + 1) r0 (.expr _) = .ok (lr.1, lr.2) := hL
    refine ⟨g2 + 1, r0, lr.1, lr.2, hw, ?_⟩
    refine (((post_all g2).1 _ _ _ _ _ hR).1.trans ?_
      |>.trans (Extends.of_expect hX2) |>.trans ?_ |>.trans hext)
    · exact Extends.of_expect hX1
    · rw [hres]
      exact Extends.insert_expr _ _ _
  | binRhs hv hE ihv =>
    obtain ⟨g, r0, t, r1, hstmt, hext⟩ := ihv
    obtain ⟨g', -, hexpr⟩ := inv_stmt_expr hstmt
    obtain ⟨g2, lr, rr, rx1, rx2, -, hL, hR, hX1, hX2, -, hres⟩ := inv_expr_bin hE hexpr
    have hw : infer_stmt P (g2 + 1) lr.2 (.expr _) = .ok (rr.1, rr.2) := hR
    refine ⟨g2 + 1, lr.2, rr.1, rr.2, hw, ?_⟩
    refine ((Extends.of_expect hX1).trans (Extends.of_expect hX2) |>.trans ?_ |>.trans hext)
    rw [hres]
    exact Extends.insert_expr _ _ _

/-! ### Claim theorems -/

/-- C5: for a finite well-formed HIR program (valid indices, children
allocated before parents) whose run does not hit an unbound-variable panic
(upstream guarantees definitions are visited before uses), inference
terminates with a result, and that result assigns some type to every
visited expression, every visited local/var definition, a signature to
every visited function definition, and a type to every parameter of every
visited function definition — never "no type". -/
theorem c5_totality (P : Program) (scope : InScope)
    (hwf : wfB P = true)
    (hnp : infer_in_scope P scope (fuelFor P) ≠ .panicked) :
    ∃ res, infer_in_scope P scope (fuelFor P) = .ok res ∧
      (∀ e, Visited P (.expr e) → ∃ ty, res.expr_tys.find e = some ty) ∧
      (∀ l, Visited P (.localDef l) → ∃ ty, res.local_tys.find l = some ty) ∧
      (∀ f, Visited P (.fncDef f) → ∃ sig, res.fnc_sigs.find f = some sig) ∧
      (∀ f fd, Visited P (.fncDef f) → P.fnc_defs[f]? = some fd →
        ∀ p ∈ fd.params.toList, ∃ ty, res.param_tys.find p = some ty) := by
  cases hres : infer_in_scope P scope (fuelFor P) with
  | panicked => exact absurd hres hnp
  | fuelOut => exact absurd hres (infer_in_scope_ne_fuelOut P scope hwf)
  | ok res =>
    refine ⟨res, rfl, ?_, ?_, ?_, ?_⟩
    · intro e hv
      obtain ⟨g, r0, t, r1, hstmt, hext⟩ := visited_run hres hv
      obtain ⟨g', -, hexpr⟩ := inv_stmt_expr hstmt
      have hfind := ((post_all g').1 _ _ _ _ _ hexpr).2.1
      exact Option.isSome_iff_exists.mp (hext.2.2.2 e (by rw [hfind]; rfl))
    · intro l hv
      obtain ⟨g, r0, t, r1, hstmt, hext⟩ := visited_run hres hv
      obtain ⟨g', ld, vr, -, -, -, -, hres1⟩ := inv_stmt_localDef hstmt
      have hfind : r1.local_tys.find l = some vr.1 := by
        rw [hres1]
        exact ArenaMap.find_insert_self _ _ _
      exact Option.isSome_iff_exists.mp (hext.1 l (by rw [hfind]; rfl))
    · intro f hv
      obtain ⟨g, r0, t, r1, hstmt, hext⟩ := visited_run hres hv
      obtain ⟨g', -, hfnc, -⟩ := inv_stmt_fncDef hstmt
      obtain ⟨g2, fd, pr, br, r2, -, -, -, -, -, hres1⟩ := inv_fnc_def hfnc
      have hfind : r1.fnc_sigs.find f = some ⟨pr.1, fd.ret_ty⟩ := by
        rw [hres1]
        exact ArenaMap.find_insert_self _ _ _
      exact Option.isSome_iff_exists.mp (hext.2.1 f (by rw [hfind]; rfl))
    · intro f fd hv hfd p hp
      obtain ⟨g, r0, t, r1, hstmt, hext⟩ := visited_run hres hv
      obtain ⟨g', -, hfnc, -⟩ := inv_stmt_fncDef hstmt
      obtain ⟨g2, fd', pr, br, r2, -, hfd', hpr, hbr, hx, hres1⟩ := inv_fnc_def hfnc
      rw [hfd] at hfd'
      cases hfd'
      obtain ⟨-, hmem, -⟩ := record_params_spec P _ _ _ _ hpr
      obtain ⟨pa, -, hfindp⟩ := hmem p hp
      have hext2 : Extends pr.2 r1 := by
        refine (((post_all g2).1 _ _ _ _ _ hbr).1.trans (Extends.of_expect hx)).trans ?_
        rw [hres1]
        exact Extends.insert_sig _ _ _
      exact Option.isSome_iff_exists.mp
        ((hext2.trans hext).2.2.1 p (by rw [hfindp]; rfl))

/-- C3: under the in-contract precondition that the checked index is valid,
the mismatch check records a diagnostic if and only if the found type
differs from the expected one and neither side is `Unknown`; when nothing
is recorded the state is unchanged, and when something is recorded it is
exactly one located `Mismatch{expected, found}` appended to the log. -/
theorem c3_mismatch_iff (P : Program) (res : InferResult) (e : ExprIdx)
    (expected found : Ty) (h : e < P.exprs.length) :
    ∃ res', expect_tys_match P res e expected found = .ok res' ∧
      (res'.errors ≠ res.errors ↔
        (found ≠ expected ∧ found ≠ Ty.unknown ∧ expected ≠ Ty.unknown)) ∧
      ((found = expected ∨ found = Ty.unknown ∨ expected = Ty.unknown) → res' = res) ∧
      ((found ≠ expected ∧ found ≠ Ty.unknown ∧ expected ≠ Ty.unknown) →
        ∃ loc, locateIn P e = some loc ∧
          res'.errors = res.errors ++ [⟨loc, TyErrorKind.mismatch expected found⟩]) := by
  obtain ⟨loc, res', hL, hok, hshape⟩ := expect_tys_match_spec P res e expected found h
  have herr : res'.errors = res.errors ++
      (if found = expected ∨ found = Ty.unknown ∨ expected = Ty.unknown then []
       else [⟨loc, TyErrorKind.mismatch expected found⟩]) := by
    rw [hshape]
  refine ⟨res', hok, ?_, ?_, ?_⟩
  · constructor
    · intro hne
      by_cases hc : found = expected ∨ found = Ty.unknown ∨ expected = Ty.unknown
      · rw [if_pos hc, List.append_nil] at herr
        exact absurd herr hne
      · push_neg at hc
        exact hc
    · intro hconj
      have hc : ¬(found = expected ∨ found = Ty.unknown ∨ expected = Ty.unknown) := by
        push_neg
        exact hconj
      rw [if_neg hc] at herr
      rw [herr]
      simp
  · intro hc
    rw [hshape, if_pos hc, List.append_nil]
  · intro hconj
    have hc : ¬(found = expected ∨ found = Ty.unknown ∨ expected = Ty.unknown) := by
      push_neg
      exact hconj
    refine ⟨loc, hL, ?_⟩
    rw [herr, if_neg hc]

/-- C4: when the mismatch check does record a diagnostic, the diagnostic's
expression index is the inner trailing expression if the checked expression
is a non-empty block whose last statement is an expression statement, and
the checked expression itself in every other case (non-block, empty block,
or block ending in a definition statement). -/
theorem c4_location (P : Program) (res : InferResult) (e : ExprIdx)
    (expected found : Ty) (res' : InferResult) (err : TyError)
    (hok : expect_tys_match P res e expected found = .ok res')
    (hrec : res'.errors = res.errors ++ [err]) :
    (∀ ss inner, P.exprs[e]? = some (.block ss) →
        ss.getLast? = some (.expr inner) → err.expr = inner) ∧
    (∀ ss, P.exprs[e]? = some (.block ss) →
        (∀ inner, ss.getLast? ≠ some (.expr inner)) → err.expr = e) ∧
    (∀ ex, P.exprs[e]? = some ex → (∀ ss, ex ≠ .block ss) → err.expr = e) := by
  unfold expect_tys_match at hok
  split at hok
  · cases hok
    exact absurd hrec (by simp)
  · rw [Res.bind_eq_ok] at hok
    obtain ⟨loc, hL, hok⟩ := hok
    rw [Res.ofOption_eq_ok] at hL
    cases hok
    simp only [List.append_cancel_left_eq, List.cons.injEq, and_true] at hrec
    obtain ⟨rfl⟩ := hrec.symm
    refine ⟨?_, ?_, ?_⟩
    · intro ss inner hE hlast
      unfold locateIn at hL
      rw [hE] at hL
      have hL2 : some (match ss.getLast? with
          | some (.expr inner2) => inner2
          | _ => e) = some loc := hL
      rw [hlast] at hL2
      exact (Option.some.inj hL2).symm
    · intro ss hE hnotexpr
      unfold locateIn at hL
      rw [hE] at hL
      have hL2 : some (match ss.getLast? with
          | some (.expr inner2) => inner2
          | _ => e) = some loc := hL
      cases hlast : ss.getLast? with
      | none =>
        rw [hlast] at hL2
        exact (Option.some.inj hL2).symm
      | some s =>
        rw [hlast] at hL2
        cases s with
        | localDef l => exact (Option.some.inj hL2).symm
        | fncDef f => exact (Option.some.inj hL2).symm
        | expr inner => exact absurd hlast (hnotexpr inner)
    · intro ex hE hnotblock
      unfold locateIn at hL
      rw [hE] at hL
      cases ex with
      | block ss => exact absurd rfl (hnotblock ss)
      | missing => exact (Option.some.inj hL).symm
      | bin lhs rhs op => exact (Option.some.inj hL).symm
      | varRef v => exact (Option.some.inj hL).symm
      | intLiteral n => exact (Option.some.inj hL).symm
      | stringLiteral s => exact (Option.some.inj hL).symm

/-- C7: extracting the snapshot from any completed result and re-running
inference over an empty statement list seeded with it yields identical
local/var, parameter and signature maps, and an empty error list. -/
theorem c7_snapshot_idempotent (res : InferResult) (P : Program) (F : Nat)
    (h : P.stmts = []) :
    ∃ r', infer_in_scope P (res.in_scope).1 F = .ok r' ∧
      r'.local_tys = res.local_tys ∧ r'.fnc_sigs = res.fnc_sigs ∧
      r'.param_tys = res.param_tys ∧ r'.errors = [] := by
  refine ⟨{ local_tys := res.local_tys, fnc_sigs := res.fnc_sigs,
            param_tys := res.param_tys, expr_tys := ArenaMap.empty, errors := [] },
          ?_, rfl, rfl, rfl, rfl⟩
  unfold infer_in_scope
  rw [h]
  rfl

/-- C8 (amended): the extraction returns an `InScope` containing exactly
the result's local/var, parameter and signature maps; the expression-type
map is discarded (the extraction does not depend on it), while the error
list is not part of the `InScope` but is returned to the caller as a
separate component. -/
theorem c8_in_scope (res : InferResult) :
    (res.in_scope).1.local_tys = res.local_tys ∧
    (res.in_scope).1.fnc_sigs = res.fnc_sigs ∧
    (res.in_scope).1.param_tys = res.param_tys ∧
    (res.in_scope).2 = res.errors ∧
    (∀ r1 r2 : InferResult, r1.local_tys = r2.local_tys →
      r1.fnc_sigs = r2.fnc_sigs → r1.param_tys = r2.param_tys →
      r1.errors = r2.errors → r1.in_scope = r2.in_scope) := by
  refine ⟨rfl, rfl, rfl, rfl, ?_⟩
  intro r1 r2 h1 h2 h3 h4
  unfold InferResult.in_scope
  rw [h1, h2, h3, h4]

/-- C9: if the referenced definition's type is already recorded, inferring
a `VarRef` succeeds (the lookup cannot panic) and assigns exactly the
stored type, both for local/var definitions and for parameters. -/
theorem c9_varref (P : Program) (F : Nat) (res : InferResult) (i : ExprIdx) :
    (∀ l ty, P.exprs[i]? = some (.varRef (.loc l)) →
       res.local_tys.find l = some ty →
       infer_expr P (F + 1) res i =
         .ok (ty, { res with expr_tys := res.expr_tys.insert i ty })) ∧
    (∀ p ty, P.exprs[i]? = some (.varRef (.param p)) →
       res.param_tys.find p = some ty →
       infer_expr P (F + 1) res i =
         .ok (ty, { res with expr_tys := res.expr_tys.insert i ty })) := by
  constructor <;>
    · intro k ty hE hfind
      unfold infer_expr
      rw [hE]
      simp [recordTy, hfind]

theorem Res.bind_assoc {α β γ : Type} (r : Res α) (f : α → Res β) (g : β → Res γ) :
    Res.bind (Res.bind r f) g = Res.bind r (fun a => Res.bind (f a) g) := by
  cases r <;> simp

/-- The in-order run of the leading statements of a block (the `for stmt
in rest` loop of the `Block` arm), mirroring `infer_stmt_list`'s fuel use. -/
def run_seq (P : Program) : Nat → InferResult → List Stmt → Res InferResult
  | _, res, [] => .ok res
  | 0, _, _ :: _ => .fuelOut
  | fuel + 1, res, s :: rest =>
    Res.bind (infer_stmt P fuel res s) fun pr => run_seq P fuel pr.2 rest

/-- A successful run of a non-empty statement list decomposes into the
in-order run of the leading statements followed by the last one. -/
theorem infer_stmt_list_split (P : Program) (last : Stmt) :
    ∀ (init : List Stmt) (F : Nat) (res : InferResult) (t : Ty) (final : InferResult),
      infer_stmt_list P F res (init ++ [last]) = .ok (t, final) →
      ∃ g r1, run_seq P F res init = .ok r1 ∧
        infer_stmt P g r1 last = .ok (t, final) := by
  intro init
  induction init with
  | nil =>
    intro F res t final h
    match F with
    | 0 => cases h
    | g + 1 =>
      have h2 : infer_stmt P g res last = .ok (t, final) := h
      exact ⟨g, res, rfl, h2⟩
  | cons s init' ih =>
    intro F res t final h
    match F with
    | 0 => cases h
    | g + 1 =>
      have h2 : (Res.bind (infer_stmt P g res s) fun pr =>
          infer_stmt_list P g pr.2 (init' ++ [last])) = .ok (t, final) := by
        cases init' with
        | nil => exact h
        | cons s2 init'' => exact h
      rw [Res.bind_eq_ok] at h2
      obtain ⟨pr, hs, hrest⟩ := h2
      obtain ⟨g2, r1, hrun, hlast⟩ := ih g pr.2 t final hrest
      refine ⟨g2, r1, ?_, hlast⟩
      show (Res.bind (infer_stmt P g res s) fun pr2 => run_seq P g pr2.2 init') = .ok r1
      rw [hs, Res.bind_ok]
      exact hrun

/-- C2: an empty block is typed `Unit` with no other effect than recording
that type; a non-empty block runs every statement in order (the leading
ones, then the last) and takes the last statement's value as its type,
where that value is `Unit` for definition statements and the expression's
inferred type for an expression statement. -/
theorem c2_block (P : Program) (F : Nat) (res : InferResult) (i : ExprIdx)
    (ss : List Stmt) (ty : Ty) (res' : InferResult)
    (hE : P.exprs[i]? = some (.block ss))
    (hok : infer_expr P F res i = .ok (ty, res')) :
    (ss = [] → ty = Ty.unit ∧
      res' = { res with expr_tys := res.expr_tys.insert i Ty.unit }) ∧
    (∀ init last, ss = init ++ [last] →
      ∃ g g2 r1 tl r2, F = g + 1 ∧
        run_seq P g res init = .ok r1 ∧
        infer_stmt P g2 r1 last = .ok (tl, r2) ∧
        ty = tl ∧ res' = { r2 with expr_tys := r2.expr_tys.insert i tl } ∧
        (∀ l, last = Stmt.localDef l → tl = Ty.unit) ∧
        (∀ f, last = Stmt.fncDef f → tl = Ty.unit) ∧
        (∀ e, last = Stmt.expr e → ∃ g3, infer_expr P g3 r1 e = .ok (tl, r2))) := by
  obtain ⟨g, pr, rfl, hlist, hty, hres⟩ := inv_expr_block hE hok
  constructor
  · rintro rfl
    match g, hlist with
    | g' + 1, hlist =>
      cases hlist
      exact ⟨hty, hres⟩
  · rintro init last rfl
    obtain ⟨g2, r1, hrs, hlast⟩ := infer_stmt_list_split P last init g res pr.1 pr.2 hlist
    refine ⟨g, g2, r1, pr.1, pr.2, rfl, hrs, hlast, hty, hres, ?_, ?_, ?_⟩
    · rintro l rfl
      obtain ⟨-, -, -, -, -, -, h, -⟩ := inv_stmt_localDef hlast
      exact hty.symm ▸ h
    · rintro f rfl
      obtain ⟨-, -, -, h⟩ := inv_stmt_fncDef hlast
      exact h
    · rintro e rfl
      obtain ⟨g2, -, h⟩ := inv_stmt_expr hlast
      exact ⟨g2, h⟩

/-- C1 (amended): a binary expression is always assigned `Int` (`S32`),
its operands are inferred independently (left first, then right, each from
the state the previous step produced), and for each operand whose type is
neither `Int` nor `Unknown` exactly one `Mismatch{expected: Int, found:
operand type}` diagnostic is appended, located by the mismatch check's
locate rule (the operand's own index, unless the operand is a non-empty
block whose last statement is an expression statement, in which case the
inner trailing expression); an operand typed `Int` or `Unknown` adds no
diagnostic. -/
theorem c1_bin (P : Program) (F : Nat) (res : InferResult) (i lhs rhs : ExprIdx)
    (op : Option BinOp) (ty : Ty) (res' : InferResult)
    (hE : P.exprs[i]? = some (.bin lhs rhs op))
    (hok : infer_expr P F res i = .ok (ty, res')) :
    ty = Ty.s32 ∧
    ∃ g lt r1 rt r2 el er, F = g + 1 ∧
      infer_expr P g res lhs = .ok (lt, r1) ∧
      infer_expr P g r1 rhs = .ok (rt, r2) ∧
      locateIn P lhs = some el ∧ locateIn P rhs = some er ∧
      res'.errors = r2.errors ++
        (if lt ≠ Ty.s32 ∧ lt ≠ Ty.unknown
         then [⟨el, TyErrorKind.mismatch Ty.s32 lt⟩] else []) ++
        (if rt ≠ Ty.s32 ∧ rt ≠ Ty.unknown
         then [⟨er, TyErrorKind.mismatch Ty.s32 rt⟩] else []) ∧
      res'.expr_tys.find i = some Ty.s32 := by
  obtain ⟨g, lr, rr, rx1, rx2, rfl, hL, hR, hX1, hX2, hty, hres⟩ := inv_expr_bin hE hok
  subst hty
  have hllen : lhs < P.exprs.length := ((post_all g).1 _ _ _ _ _ hL).2.2
  have hrlen : rhs < P.exprs.length := ((post_all g).1 _ _ _ _ _ hR).2.2
  obtain ⟨el, rx1', hLe, hok1, hshape1⟩ := expect_tys_match_spec P rr.2 lhs .s32 lr.1 hllen
  rw [hX1] at hok1
  cases hok1
  obtain ⟨er, rx2', hRe, hok2, hshape2⟩ := expect_tys_match_spec P rx1 rhs .s32 rr.1 hrlen
  rw [hX2] at hok2
  cases hok2
  refine ⟨rfl, g, lr.1, lr.2, rr.1, rr.2, el, er, rfl, hL, hR, hLe, hRe, ?_, ?_⟩
  · have h1 : rx1.errors = rr.2.errors ++
        (if lr.1 ≠ Ty.s32 ∧ lr.1 ≠ Ty.unknown
         then [⟨el, TyErrorKind.mismatch Ty.s32 lr.1⟩] else []) := by
      rw [hshape1]
      by_cases hc : lr.1 = Ty.s32 ∨ lr.1 = Ty.unknown
      · have hc' : lr.1 = Ty.s32 ∨ lr.1 = Ty.unknown ∨ Ty.s32 = Ty.unknown := by tauto
        have hd : ¬(lr.1 ≠ Ty.s32 ∧ lr.1 ≠ Ty.unknown) := by tauto
        rw [if_pos hc', if_neg hd]
      · have hc' : ¬(lr.1 = Ty.s32 ∨ lr.1 = Ty.unknown ∨ Ty.s32 = Ty.unknown) := by
          simp only [not_or]
          refine ⟨?_, ?_, by simp⟩ <;> tauto
        have hd : lr.1 ≠ Ty.s32 ∧ lr.1 ≠ Ty.unknown := by tauto
        rw [if_neg hc', if_pos hd]
    have h2 : rx2.errors = rx1.errors ++
        (if rr.1 ≠ Ty.s32 ∧ rr.1 ≠ Ty.unknown
         then [⟨er, TyErrorKind.mismatch Ty.s32 rr.1⟩] else []) := by
      rw [hshape2]
      by_cases hc : rr.1 = Ty.s32 ∨ rr.1 = Ty.unknown
      · have hc' : rr.1 = Ty.s32 ∨ rr.1 = Ty.unknown ∨ Ty.s32 = Ty.unknown := by tauto
        have hd : ¬(rr.1 ≠ Ty.s32 ∧ rr.1 ≠ Ty.unknown) := by tauto
        rw [if_pos hc', if_neg hd]
      · have hc' : ¬(rr.1 = Ty.s32 ∨ rr.1 = Ty.unknown ∨ Ty.s32 = Ty.unknown) := by
          simp only [not_or]
          refine ⟨?_, ?_, by simp⟩ <;> tauto
        have hd : rr.1 ≠ Ty.s32 ∧ rr.1 ≠ Ty.unknown := by tauto
        rw [if_neg hc', if_pos hd]
    have herr : res'.errors = rx2.errors := by
      rw [hres]
    rw [herr, h2, h1, List.append_assoc]
  · rw [hres]
    exact ArenaMap.find_insert_self _ _ _

/-- C6: a function definition records every parameter's declared type
verbatim into the param type map (and collects them in order), infers the
body, checks it against the declared return type with the mismatch check,
and records `Sig{declared param types, declared ret_ty}` regardless of
whether that check produced a diagnostic. -/
theorem c6_fnc_def (P : Program) (F : Nat) (res : InferResult) (idx : FncDefIdx)
    (fd : FncDef) (res' : InferResult)
    (hfd : P.fnc_defs[idx]? = some fd)
    (hok : infer_fnc_def P F res idx = .ok res') :
    ∃ g tys r1 bty r2 r3, F = g + 1 ∧
      record_params P res fd.params.toList = .ok (tys, r1) ∧
      List.Forall₂ (fun p t => ∃ pa, P.params[p]? = some pa ∧ pa.ty = t)
        fd.params.toList tys ∧
      (∀ p ∈ fd.params.toList, ∃ pa, P.params[p]? = some pa ∧
        r1.param_tys.find p = some pa.ty) ∧
      infer_expr P g r1 fd.body = .ok (bty, r2) ∧
      expect_tys_match P r2 fd.body fd.ret_ty bty = .ok r3 ∧
      res' = { r3 with fnc_sigs := r3.fnc_sigs.insert idx ⟨tys, fd.ret_ty⟩ } ∧
      res'.fnc_sigs.find idx = some ⟨tys, fd.ret_ty⟩ := by
  obtain ⟨g, fd', pr, br, r3, rfl, hfd', hpr, hbr, hx, hres⟩ := inv_fnc_def hok
  rw [hfd] at hfd'
  cases hfd'
  obtain ⟨hall, hmem, -⟩ := record_params_spec P _ _ _ _ hpr
  refine ⟨g, pr.1, pr.2, br.1, br.2, r3, rfl, hpr, hall, hmem, hbr, hx, hres, ?_⟩
  rw [hres]
  exact ArenaMap.find_insert_self _ _ _

/-! ### Operator irrelevance (claim C10) -/

/-- Two expression nodes that are identical except possibly for the `op`
field of a binary expression. -/
def exprOpEquiv : Expr → Expr → Bool
  | .missing, .missing => true
  | .bin l r _, .bin l' r' _ => decide (l = l') && decide (r = r')
  | .block ss, .block ss' => decide (ss = ss')
  | .varRef v, .varRef v' => decide (v = v')
  | .intLiteral n, .intLiteral n' => decide (n = n')
  | .stringLiteral s, .stringLiteral s' => decide (s = s')
  | _, _ => false

/-- Two programs identical except for the `op` fields (present or absent)
of their binary expressions. -/
def Program.opEquiv (P P' : Program) : Bool :=
  decide (P.local_defs = P'.local_defs) && decide (P.fnc_defs = P'.fnc_defs) &&
  decide (P.params = P'.params) && decide (P.stmts = P'.stmts) &&
  decide (P.exprs.length = P'.exprs.length) &&
  (List.zip P.exprs P'.exprs).all fun pr => exprOpEquiv pr.1 pr.2

theorem zip_mem_of_getElem? {α β : Type} :
    ∀ (l : List α) (l' : List β) (i : Nat) (a : α) (b : β),
      l[i]? = some a → l'[i]? = some b → (a, b) ∈ l.zip l' := by
  intro l
  induction l with
  | nil => intro l' i a b hget; simp at hget
  | cons x xs ih =>
    intro l' i a b hget hget'
    cases l' with
    | nil => simp at hget'
    | cons y ys =>
      cases i with
      | zero =>
        simp only [List.getElem?_cons_zero, Option.some.injEq] at hget hget'
        subst hget
        subst hget'
        simp [List.zip_cons_cons]
      | succ j =>
        simp only [List.getElem?_cons_succ] at hget hget'
        rw [List.zip_cons_cons]
        exact List.mem_cons_of_mem _ (ih ys j a b hget hget')

theorem opEquiv_parts {P P' : Program} (h : Program.opEquiv P P' = true) :
    P.local_defs = P'.local_defs ∧ P.fnc_defs = P'.fnc_defs ∧
    P.params = P'.params ∧ P.stmts = P'.stmts ∧
    P.exprs.length = P'.exprs.length ∧
    ∀ (i : Nat) (e e' : Expr), P.exprs[i]? = some e → P'.exprs[i]? = some e' →
      exprOpEquiv e e' = true := by
  unfold Program.opEquiv at h
  simp only [Bool.and_eq_true, decide_eq_true_eq] at h
  obtain ⟨⟨⟨⟨⟨h1, h2⟩, h3⟩, h4⟩, h5⟩, h6⟩ := h
  refine ⟨h1, h2, h3, h4, h5, ?_⟩
  intro i e e' hE hE'
  have hmem := zip_mem_of_getElem? P.exprs P'.exprs i e e' hE hE'
  exact List.all_eq_true.mp h6 _ hmem

theorem opEquiv_exprs_none {P P' : Program} (h : Program.opEquiv P P' = true)
    {i : Nat} (hE : P.exprs[i]? = none) : P'.exprs[i]? = none := by
  have hlen := (opEquiv_parts h).2.2.2.2.1
  cases hE' : P'.exprs[i]? with
  | none => rfl
  | some e' =>
    obtain ⟨hlt', -⟩ := List.getElem?_eq_some.mp hE'
    have hlt : i < P.exprs.length := by omega
    rw [List.getElem?_eq_getElem hlt] at hE
    cases hE

theorem opEquiv_exprs_some {P P' : Program} (h : Program.opEquiv P P' = true)
    {i : Nat} {e : Expr} (hE : P.exprs[i]? = some e) :
    ∃ e', P'.exprs[i]? = some e' ∧ exprOpEquiv e e' = true := by
  have hlen := (opEquiv_parts h).2.2.2.2.1
  obtain ⟨hlt, -⟩ := List.getElem?_eq_some.mp hE
  have hlt' : i < P'.exprs.length := by omega
  refine ⟨P'.exprs[i], List.getElem?_eq_getElem hlt', ?_⟩
  exact (opEquiv_parts h).2.2.2.2.2 i e _ hE (List.getElem?_eq_getElem hlt')

theorem locateIn_opEquiv {P P' : Program} (h : Program.opEquiv P P' = true)
    (e : ExprIdx) : locateIn P e = locateIn P' e := by
  unfold locateIn
  cases hE : P.exprs[e]? with
  | none =>
    rw [opEquiv_exprs_none h hE]
  | some ex =>
    obtain ⟨ex', hE', hq⟩ := opEquiv_exprs_some h hE
    rw [hE']
    cases ex <;> cases ex' <;> simp_all [exprOpEquiv]

theorem expect_opEquiv {P P' : Program} (h : Program.opEquiv P P' = true)
    (res : InferResult) (e : ExprIdx) (expected found : Ty) :
    expect_tys_match P res e expected found =
      expect_tys_match P' res e expected found := by
  unfold expect_tys_match
  rw [locateIn_opEquiv h]

theorem record_params_opEquiv {P P' : Program} (hp : P.params = P'.params) :
    ∀ (ps : List ParamIdx) (res : InferResult),
      record_params P res ps = record_params P' res ps := by
  intro ps
  induction ps with
  | nil => intro res; rfl
  | cons p rest ih =>
    intro res
    unfold record_params
    rw [hp]
    congr 1
    funext param
    rw [ih]

theorem op_equiv_all {P P' : Program} (h : Program.opEquiv P P' = true) : ∀ F : Nat,
    (∀ (res : InferResult) (i : ExprIdx),
      infer_expr P F res i = infer_expr P' F res i) ∧
    (∀ (res : InferResult) (ss : List Stmt),
      infer_stmt_list P F res ss = infer_stmt_list P' F res ss) ∧
    (∀ (res : InferResult) (s : Stmt),
      infer_stmt P F res s = infer_stmt P' F res s) ∧
    (∀ (res : InferResult) (idx : FncDefIdx),
      infer_fnc_def P F res idx = infer_fnc_def P' F res idx) := by
  intro F
  induction F with
  | zero => simp [infer_expr, infer_stmt_list, infer_stmt, infer_fnc_def]
  | succ F ih =>
    obtain ⟨ihE, ihL, ihS, ihF⟩ := ih
    have hE2 : ∀ (res : InferResult) (i : ExprIdx),
        infer_expr P (F + 1) res i = infer_expr P' (F + 1) res i := by
      intro res i
      unfold infer_expr
      cases hEi : P.exprs[i]? with
      | none =>
        rw [opEquiv_exprs_none h hEi]
        simp
      | some e =>
        obtain ⟨e', hE', hq⟩ := opEquiv_exprs_some h hEi
        rw [hE']
        simp only [Res.ofOption_some, Res.bind_ok]
        cases e with
        | missing =>
          cases e' <;> first | rfl | exact Bool.noConfusion hq
        | bin lhs rhs op =>
          cases e' with
          | bin lhs' rhs' op' =>
            have hq2 : (decide (lhs = lhs') && decide (rhs = rhs')) = true := hq
            simp only [Bool.and_eq_true, decide_eq_true_eq] at hq2
            obtain ⟨rfl, rfl⟩ := hq2
            simp only [ihE, ihL, expect_opEquiv h]
          | missing => exact Bool.noConfusion hq
          | block ss' => exact Bool.noConfusion hq
          | varRef v' => exact Bool.noConfusion hq
          | intLiteral n' => exact Bool.noConfusion hq
          | stringLiteral s' => exact Bool.noConfusion hq
        | block ss =>
          cases e' with
          | block ss' =>
            have hss : ss = ss' := of_decide_eq_true hq
            subst hss
            simp only [ihE, ihL, expect_opEquiv h]
          | missing => exact Bool.noConfusion hq
          | bin lhs' rhs' op' => exact Bool.noConfusion hq
          | varRef v' => exact Bool.noConfusion hq
          | intLiteral n' => exact Bool.noConfusion hq
          | stringLiteral s' => exact Bool.noConfusion hq
        | varRef v =>
          cases e' with
          | varRef v' =>
            have hveq : v = v' := of_decide_eq_true hq
            cases hveq
            cases v <;> rfl
          | missing => exact Bool.noConfusion hq
          | bin lhs' rhs' op' => exact Bool.noConfusion hq
          | block ss' => exact Bool.noConfusion hq
          | intLiteral n' => exact Bool.noConfusion hq
          | stringLiteral s' => exact Bool.noConfusion hq
        | intLiteral n =>
          cases e' <;> first | (cases of_decide_eq_true hq; rfl) | exact Bool.noConfusion hq
        | stringLiteral s =>
          cases e' <;> first | (cases of_decide_eq_true hq; rfl) | exact Bool.noConfusion hq
    have hF2 : ∀ (res : InferResult) (idx : FncDefIdx),
        infer_fnc_def P (F + 1) res idx = infer_fnc_def P' (F + 1) res idx := by
      intro res idx
      unfold infer_fnc_def
      rw [(opEquiv_parts h).2.1]
      congr 1
      funext fd
      rw [record_params_opEquiv (opEquiv_parts h).2.2.1]
      congr 1
      funext pr
      rw [ihE]
      congr 1
      funext br
      rw [expect_opEquiv h]
    have hS2 : ∀ (res : InferResult) (s : Stmt),
        infer_stmt P (F + 1) res s = infer_stmt P' (F + 1) res s := by
      intro res s
      cases s with
      | localDef l =>
        show (Res.bind (Res.ofOption P.local_defs[l]?) fun ld =>
            Res.bind (infer_expr P F res ld.value) fun vr =>
            Res.ok (Ty.unit, ({ vr.2 with local_tys := vr.2.local_tys.insert l vr.1 } : InferResult))) =
          (Res.bind (Res.ofOption P'.local_defs[l]?) fun ld =>
            Res.bind (infer_expr P' F res ld.value) fun vr =>
            Res.ok (Ty.unit, ({ vr.2 with local_tys := vr.2.local_tys.insert l vr.1 } : InferResult)))
        rw [(opEquiv_parts h).1]
        congr 1
        funext ld
        rw [ihE]
      | fncDef idx =>
        show (Res.bind (infer_fnc_def P F res idx) fun res1 => Res.ok (Ty.unit, res1)) =
          (Res.bind (infer_fnc_def P' F res idx) fun res1 => Res.ok (Ty.unit, res1))
        rw [ihF]
      | expr e => exact ihE res e
    refine ⟨hE2, ?_, hS2, hF2⟩
    intro res ss
    match ss with
    | [] => rfl
    | [s] =>
      show infer_stmt P F res s = infer_stmt P' F res s
      exact ihS res s
    | s :: s2 :: rest =>
      show (Res.bind (infer_stmt P F res s) fun pr =>
          infer_stmt_list P F pr.2 (s2 :: rest)) = _
      rw [ihS]
      congr 1
      funext pr
      exact ihL pr.2 (s2 :: rest)

theorem run_stmts_opEquiv {P P' : Program} (h : Program.opEquiv P P' = true)
    (F : Nat) : ∀ (ss : List Stmt) (res : InferResult),
      run_stmts P F res ss = run_stmts P' F res ss := by
  intro ss
  induction ss with
  | nil => intro res; rfl
  | cons s rest ih =>
    intro res
    unfold run_stmts
    rw [(op_equiv_all h F).2.2.1]
    congr 1
    funext pr
    exact ih pr.2

/-- C10: inference never reads the `op` field of a binary expression — two
programs identical except for the `op` values (present or absent) of their
binary expressions produce identical inference results: same type maps,
same signatures, and the same diagnostics in the same order, both for a
seeded run and for a fresh run. -/
theorem c10_op_irrelevant (P P' : Program) (h : Program.opEquiv P P' = true)
    (scope : InScope) (F : Nat) :
    infer_in_scope P scope F = infer_in_scope P' scope F ∧
    infer P F = infer P' F := by
  have hmain : ∀ sc, infer_in_scope P sc F = infer_in_scope P' sc F := by
    intro sc
    unfold infer_in_scope
    rw [(opEquiv_parts h).2.2.2.1]
    rw [run_stmts_opEquiv h]
  exact ⟨hmain scope, hmain InScope.default⟩

/-! ### Concrete programs and results used by witnesses and counterexamples -/

/-- The empty initial inference state (fresh run, no seed). -/
def res0 : InferResult :=
  ⟨ArenaMap.empty, ArenaMap.empty, ArenaMap.empty, ArenaMap.empty, []⟩

/-- A binary expression over two int literals. -/
def binProg : Program :=
  ⟨[], [], [], [.intLiteral 1, .intLiteral 2, .bin 0 1 none], [.expr 2]⟩

/-- Result of inferring `binProg`'s binary expression. -/
def binRes : InferResult :=
  ⟨ArenaMap.empty, ArenaMap.empty, ArenaMap.empty,
   ⟨[(0, .s32), (1, .s32), (2, .s32)]⟩, []⟩

/-- A block ending in an expression statement. -/
def blockProg : Program :=
  ⟨[⟨0⟩], [], [], [.intLiteral 5, .varRef (.loc 0), .block [.localDef 0, .expr 1]],
   [.expr 2]⟩

/-- Result of inferring `blockProg`'s block. -/
def blockRes : InferResult :=
  ⟨⟨[(0, .s32)]⟩, ArenaMap.empty, ArenaMap.empty,
   ⟨[(0, .s32), (1, .s32), (2, .s32)]⟩, []⟩

/-- A program whose expression 1 is a block ending in an expression
statement (for the locate rule). -/
def locProg : Program := ⟨[], [], [], [.intLiteral 1, .block [.expr 0]], []⟩

/-- State holding one mismatch located at the inner trailing expression. -/
def locRes : InferResult :=
  ⟨ArenaMap.empty, ArenaMap.empty, ArenaMap.empty, ArenaMap.empty,
   [⟨0, TyErrorKind.mismatch Ty.s32 Ty.unit⟩]⟩

/-- A well-formed program exercising missing values, variable references
and a binary expression. -/
def totalProg : Program :=
  ⟨[⟨0⟩], [], [], [.missing, .varRef (.loc 0), .intLiteral 4, .bin 1 2 (some .add)],
   [.localDef 0, .expr 3]⟩

/-- A one-parameter function definition whose body returns the parameter. -/
def fncProg : Program :=
  ⟨[], [⟨⟨0, 1⟩, .s32, 0⟩], [⟨.s32⟩], [.varRef (.param 0)], [.fncDef 0]⟩

/-- The function definition stored in `fncProg`. -/
def fncDefW : FncDef := ⟨⟨0, 1⟩, .s32, 0⟩

/-- Result of processing `fncProg`'s function definition. -/
def fncRes : InferResult :=
  ⟨ArenaMap.empty, ⟨[(0, ⟨[.s32], .s32⟩)]⟩, ⟨[(0, .s32)]⟩, ⟨[(0, .s32)]⟩, []⟩

/-- A program with no statements (for snapshot idempotence). -/
def emptyProg : Program := ⟨[], [], [], [], []⟩

/-- A sample completed result with non-trivial maps and one diagnostic. -/
def sampleRes : InferResult :=
  ⟨⟨[(3, .s32)]⟩, ArenaMap.empty, ⟨[(1, .unit)]⟩, ⟨[(0, .string)]⟩,
   [⟨0, TyErrorKind.mismatch Ty.s32 Ty.unit⟩]⟩

/-- `sampleRes` with a different expression-type map. -/
def sampleRes2 : InferResult :=
  ⟨⟨[(3, .s32)]⟩, ArenaMap.empty, ⟨[(1, .unit)]⟩, ⟨[(9, .unknown)]⟩,
   [⟨0, TyErrorKind.mismatch Ty.s32 Ty.unit⟩]⟩

/-- Variable references into a pre-populated environment. -/
def varProg : Program := ⟨[], [], [], [.varRef (.loc 0), .varRef (.param 1)], []⟩

/-- Environment binding local 0 and parameter 1. -/
def varRes : InferResult :=
  ⟨⟨[(0, .string)]⟩, ArenaMap.empty, ⟨[(1, .unit)]⟩, ArenaMap.empty, []⟩

/-- A binary expression whose left operand is a block ending in an
expression statement of type `Unit`. -/
def relocProg : Program :=
  ⟨[], [], [], [.block [], .block [.expr 0], .intLiteral 7, .bin 1 2 (some .add)],
   [.expr 3]⟩

/-- A binary expression with a present operator. -/
def opProgA : Program :=
  ⟨[], [], [], [.intLiteral 1, .intLiteral 2, .bin 0 1 (some .add)], [.expr 2]⟩

/-- The same program with the operator absent. -/
def opProgB : Program :=
  ⟨[], [], [], [.intLiteral 1, .intLiteral 2, .bin 0 1 none], [.expr 2]⟩

/-! ### Witnesses and counterexamples -/

/-- C1 counterexample: with the left operand a non-empty block (of type
`Unit`) whose last statement is an expression statement, the single
mismatch diagnostic is located at the inner trailing expression (index 0),
not at the operand's own expression index (index 1) as the claim states. -/
theorem c1_bin_counterexample :
    (Res.bind (infer relocProg 10) fun r => .ok r.errors) =
      .ok [⟨0, TyErrorKind.mismatch Ty.s32 Ty.unit⟩] ∧
    (Res.bind (infer relocProg 10) fun r => .ok r.errors) ≠
      .ok [⟨1, TyErrorKind.mismatch Ty.s32 Ty.unit⟩] := by
  constructor
  · decide
  · decide

theorem c1_bin_witness :
    Ty.s32 = Ty.s32 ∧
    ∃ g lt r1 rt r2 el er, (2 : Nat) = g + 1 ∧
      infer_expr binProg g res0 0 = .ok (lt, r1) ∧
      infer_expr binProg g r1 1 = .ok (rt, r2) ∧
      locateIn binProg 0 = some el ∧ locateIn binProg 1 = some er ∧
      binRes.errors = r2.errors ++
        (if lt ≠ Ty.s32 ∧ lt ≠ Ty.unknown
         then [⟨el, TyErrorKind.mismatch Ty.s32 lt⟩] else []) ++
        (if rt ≠ Ty.s32 ∧ rt ≠ Ty.unknown
         then [⟨er, TyErrorKind.mismatch Ty.s32 rt⟩] else []) ∧
      binRes.expr_tys.find 2 = some Ty.s32 :=
  c1_bin binProg 2 res0 2 0 1 none Ty.s32 binRes (by decide) (by decide)

theorem c2_block_witness :
    (([Stmt.localDef 0, Stmt.expr 1] : List Stmt) = [] → Ty.s32 = Ty.unit ∧
      blockRes = { res0 with expr_tys := res0.expr_tys.insert 2 Ty.unit }) ∧
    (∀ init last, ([Stmt.localDef 0, Stmt.expr 1] : List Stmt) = init ++ [last] →
      ∃ g g2 r1 tl r2, (10 : Nat) = g + 1 ∧
        run_seq blockProg g res0 init = .ok r1 ∧
        infer_stmt blockProg g2 r1 last = .ok (tl, r2) ∧
        Ty.s32 = tl ∧ blockRes = { r2 with expr_tys := r2.expr_tys.insert 2 tl } ∧
        (∀ l, last = Stmt.localDef l → tl = Ty.unit) ∧
        (∀ f, last = Stmt.fncDef f → tl = Ty.unit) ∧
        (∀ e, last = Stmt.expr e →
          ∃ g3, infer_expr blockProg g3 r1 e = .ok (tl, r2))) :=
  c2_block blockProg 10 res0 2 [.localDef 0, .expr 1] Ty.s32 blockRes
    (by decide) (by decide)

theorem c3_mismatch_iff_witness :
    0 < binProg.exprs.length ∧
    (∃ res', expect_tys_match binProg res0 0 Ty.s32 Ty.unit = .ok res' ∧
      (res'.errors ≠ res0.errors ↔
        (Ty.unit ≠ Ty.s32 ∧ Ty.unit ≠ Ty.unknown ∧ Ty.s32 ≠ Ty.unknown)) ∧
      ((Ty.unit = Ty.s32 ∨ Ty.unit = Ty.unknown ∨ Ty.s32 = Ty.unknown) → res' = res0) ∧
      ((Ty.unit ≠ Ty.s32 ∧ Ty.unit ≠ Ty.unknown ∧ Ty.s32 ≠ Ty.unknown) →
        ∃ loc, locateIn binProg 0 = some loc ∧
          res'.errors = res0.errors ++ [⟨loc, TyErrorKind.mismatch Ty.s32 Ty.unit⟩])) :=
  ⟨by decide, c3_mismatch_iff binProg res0 0 Ty.s32 Ty.unit (by decide)⟩

theorem c4_location_witness :
    expect_tys_match locProg res0 1 Ty.s32 Ty.unit = .ok locRes ∧
    locRes.errors = res0.errors ++ [⟨0, TyErrorKind.mismatch Ty.s32 Ty.unit⟩] ∧
    ((∀ ss inner, locProg.exprs[1]? = some (.block ss) →
        ss.getLast? = some (.expr inner) →
        (⟨0, TyErrorKind.mismatch Ty.s32 Ty.unit⟩ : TyError).expr = inner) ∧
     (∀ ss, locProg.exprs[1]? = some (.block ss) →
        (∀ inner, ss.getLast? ≠ some (.expr inner)) →
        (⟨0, TyErrorKind.mismatch Ty.s32 Ty.unit⟩ : TyError).expr = 1) ∧
     (∀ ex, locProg.exprs[1]? = some ex → (∀ ss, ex ≠ .block ss) →
        (⟨0, TyErrorKind.mismatch Ty.s32 Ty.unit⟩ : TyError).expr = 1)) :=
  ⟨by decide, rfl,
   c4_location locProg res0 1 Ty.s32 Ty.unit locRes
     ⟨0, TyErrorKind.mismatch Ty.s32 Ty.unit⟩ (by decide) rfl⟩

theorem c5_totality_witness :
    wfB totalProg = true ∧
    infer_in_scope totalProg InScope.default (fuelFor totalProg) ≠ .panicked ∧
    (∃ res, infer_in_scope totalProg InScope.default (fuelFor totalProg) = .ok res ∧
      (∀ e, Visited totalProg (.expr e) → ∃ ty, res.expr_tys.find e = some ty) ∧
      (∀ l, Visited totalProg (.localDef l) → ∃ ty, res.local_tys.find l = some ty) ∧
      (∀ f, Visited totalProg (.fncDef f) → ∃ sig, res.fnc_sigs.find f = some sig) ∧
      (∀ f fd, Visited totalProg (.fncDef f) → totalProg.fnc_defs[f]? = some fd →
        ∀ p ∈ fd.params.toList, ∃ ty, res.param_tys.find p = some ty)) :=
  ⟨by decide, by decide,
   c5_totality totalProg InScope.default (by decide) (by decide)⟩

theorem c6_fnc_def_witness :
    fncProg.fnc_defs[0]? = some fncDefW ∧
    infer_fnc_def fncProg 2 res0 0 = .ok fncRes ∧
    (∃ g tys r1 bty r2 r3, (2 : Nat) = g + 1 ∧
      record_params fncProg res0 fncDefW.params.toList = .ok (tys, r1) ∧
      List.Forall₂ (fun p t => ∃ pa, fncProg.params[p]? = some pa ∧ pa.ty = t)
        fncDefW.params.toList tys ∧
      (∀ p ∈ fncDefW.params.toList, ∃ pa, fncProg.params[p]? = some pa ∧
        r1.param_tys.find p = some pa.ty) ∧
      infer_expr fncProg g r1 fncDefW.body = .ok (bty, r2) ∧
      expect_tys_match fncProg r2 fncDefW.body fncDefW.ret_ty bty = .ok r3 ∧
      fncRes = { r3 with fnc_sigs := r3.fnc_sigs.insert 0 ⟨tys, fncDefW.ret_ty⟩ } ∧
      fncRes.fnc_sigs.find 0 = some ⟨tys, fncDefW.ret_ty⟩) :=
  ⟨by decide, by decide,
   c6_fnc_def fncProg 2 res0 0 fncDefW fncRes (by decide) (by decide)⟩

theorem c7_snapshot_idempotent_witness :
    emptyProg.stmts = [] ∧
    (∃ r', infer_in_scope emptyProg (sampleRes.in_scope).1 3 = .ok r' ∧
      r'.local_tys = sampleRes.local_tys ∧ r'.fnc_sigs = sampleRes.fnc_sigs ∧
      r'.param_tys = sampleRes.param_tys ∧ r'.errors = []) :=
  ⟨rfl, c7_snapshot_idempotent sampleRes emptyProg 3 rfl⟩

/-- C8 counterexample: the extraction does not discard the error list —
it hands it to the caller as the second component of the returned pair. -/
theorem c8_in_scope_counterexample :
    (sampleRes.in_scope).2 = [⟨0, TyErrorKind.mismatch Ty.s32 Ty.unit⟩] ∧
    (sampleRes.in_scope).2 ≠ ([] : List TyError) := by
  constructor
  · rfl
  · decide

theorem c8_in_scope_witness :
    (sampleRes.in_scope).1.local_tys = sampleRes.local_tys ∧
    (sampleRes.in_scope).2 = sampleRes.errors ∧
    sampleRes.in_scope = sampleRes2.in_scope :=
  ⟨(c8_in_scope sampleRes).1, (c8_in_scope sampleRes).2.2.2.1,
   (c8_in_scope sampleRes).2.2.2.2 sampleRes sampleRes2 rfl rfl rfl rfl⟩

theorem c9_varref_witness :
    infer_expr varProg 1 varRes 0 =
      .ok (Ty.string, { varRes with expr_tys := varRes.expr_tys.insert 0 Ty.string }) ∧
    infer_expr varProg 1 varRes 1 =
      .ok (Ty.unit, { varRes with expr_tys := varRes.expr_tys.insert 1 Ty.unit }) :=
  ⟨(c9_varref varProg 0 varRes 0).1 0 Ty.string (by decide) rfl,
   (c9_varref varProg 0 varRes 1).2 1 Ty.unit (by decide) rfl⟩

theorem c10_op_irrelevant_witness :
    Program.opEquiv opProgA opProgB = true ∧
    (infer_in_scope opProgA InScope.default 5 = infer_in_scope opProgB InScope.default 5 ∧
     infer opProgA 5 = infer opProgB 5) :=
  ⟨by decide, c10_op_irrelevant opProgA opProgB (by decide) InScope.default 5⟩

end HirTy
